import Mathlib

/-!
Verification of the music-turtles repository against its specification.

The definitions in this file are a shallow embedding of the Rust sources:
  * `src/backend/src/time.rs`        (exact musical time model)
  * `src/backend/src/composition.rs` (events, tracks, compositions)
  * `src/backend/src/cfg/mod.rs`     (grammar, composer, rewriting engine)
  * `src/backend/src/cfg/scan.rs`    (scanner layer)
  * `src/src/scheduler.rs`           (real-time scheduler)

Embedding conventions:
  * `u32` is modelled as `ℕ`.  Where underflow of `u32` subtraction matters
    (`Sub for MusicTimeWithSignature`) the wrap-around of release builds is
    made explicit with `% 2^32` (debug builds panic instead; both behaviours
    are discussed at the theorems concerned).  `u32` addition overflow is
    outside the range exercised by any claim and is modelled as plain `ℕ`
    addition.
  * `Ratio<BeatUnit>` (an unsigned rational) is modelled as `ℚ`;
    nonnegativity, which holds by construction in Rust, is carried as
    hypotheses where proofs need it.  On the nonnegative domain the Rust
    `floor`/`%` pair coincides with `Int.floor`-based division and remainder
    as used below (`Ratio` cannot hold negative values, so the two semantics
    agree everywhere the Rust code is defined).
  * Rust `HashMap<Instrument, Track>` is modelled as the function space
    `Instrument → Option Track`; `into_values()` enumerates the (closed,
    seven-element) instrument type in declaration order.  Every verified
    property is independent of the enumeration order.
-/

namespace MusicTurtles

/-! ## Time model — src/backend/src/time.rs -/

/-- `2^32`, the size of the `u32` measure type. -/
def u32Size : ℕ := 4294967296

/-- `TimeSignature(pub BeatUnit, pub BeatUnit)`: field `.0` is the number of
beats per measure, field `.1` the beat unit. -/
structure TimeSignature where
  beatsPerMeasure : ℕ
  beatUnit : ℕ
deriving DecidableEq, Repr

/-- `TimeSignature::common()` -/
def TimeSignature.common : TimeSignature := ⟨4, 4⟩

/-- `MusicTime(pub Measure, pub Beat)`: a measure count (`u32`) plus a beat
offset (`Ratio<BeatUnit>`, modelled as `ℚ`). -/
structure MusicTime where
  measure : ℕ
  beat : ℚ
deriving DecidableEq, Repr

/-- `Beat::as_music_time`: normalise a raw beat count into
`(extra_measures, remainder_beat)` by floor division by `beatsPerMeasure`.
In Rust: `measures = (b / ts.0).floor()`, `leftover = b % ts.0`.
(For `ts.0 = 0` the Rust `Ratio` arithmetic panics; all theorems below
assume `0 < beatsPerMeasure`.) -/
def Beat.as_music_time (b : ℚ) (ts : TimeSignature) : MusicTime :=
  ⟨(⌊b / (ts.beatsPerMeasure : ℚ)⌋).toNat,
    b - (ts.beatsPerMeasure : ℚ) * ⌊b / (ts.beatsPerMeasure : ℚ)⌋⟩

/-- `MusicTime::zero()` -/
def MusicTime.zero : MusicTime := ⟨0, 0⟩

/-- `MusicTime::beats(b)` -/
def MusicTime.beats (b : ℕ) : MusicTime := ⟨0, (b : ℚ)⟩

/-- `MusicTime::measures(m)` -/
def MusicTime.measures (m : ℕ) : MusicTime := ⟨m, 0⟩

/-- The derived `Ord` of `MusicTime` is lexicographic on `(measure, beat)`;
we realise it by lifting the linear order of `ℕ ×ₗ ℚ`. -/
def MusicTime.toLexPair (t : MusicTime) : ℕ ×ₗ ℚ := toLex (t.measure, t.beat)

theorem MusicTime.toLexPair_injective : Function.Injective MusicTime.toLexPair := by
  intro a b h
  cases a; cases b
  simpa [MusicTime.toLexPair, toLex, Prod.ext_iff, MusicTime.mk.injEq] using h

instance : LinearOrder MusicTime :=
  LinearOrder.lift' MusicTime.toLexPair MusicTime.toLexPair_injective

theorem MusicTime.le_def (x y : MusicTime) :
    x ≤ y ↔ x.measure < y.measure ∨ (x.measure = y.measure ∧ x.beat ≤ y.beat) := by
  show x.toLexPair ≤ y.toLexPair ↔ _
  exact Prod.Lex.le_iff _ _

theorem MusicTime.lt_def (x y : MusicTime) :
    x < y ↔ x.measure < y.measure ∨ (x.measure = y.measure ∧ x.beat < y.beat) := by
  show x.toLexPair < y.toLexPair ↔ _
  exact Prod.Lex.lt_iff _ _

/-- `MusicTimeWithSignature::total_beats`:
`Beat::new(m * ts.0, 1) + beat`. -/
def total_beats (ts : TimeSignature) (t : MusicTime) : ℚ :=
  (t.measure : ℚ) * (ts.beatsPerMeasure : ℚ) + t.beat

/-- `Add<MusicTime> for MusicTimeWithSignature`:
add the measures, normalise the summed beats, add the carry. -/
def music_time_add (ts : TimeSignature) (x y : MusicTime) : MusicTime :=
  let new_measure := x.measure + y.measure
  let m := Beat.as_music_time (x.beat + y.beat) ts
  ⟨new_measure + m.measure, m.beat⟩

/-- `Sub<MusicTime> for MusicTimeWithSignature`.
The Rust code performs `measure - measure2` (and possibly a further `-= 1`)
on `u32`: in release builds this wraps modulo `2^32`, in debug builds it
panics.  The wrap-around is modelled explicitly; the borrowed beat
subtraction (`Ratio<u32>`) is modelled over `ℚ` (it is nonnegative whenever
the representation invariant holds, which is the only region where the Rust
code does not itself panic).
(The scheduler crate has its own older copy `src/src/time.rs` whose `Sub`
subtracts the unsigned beats with no working borrow; that implementation —
the one `Scheduler::get_next_events_and_update` actually calls — is
embedded separately as `music_time_sub_src` in the scheduler section.) -/
def music_time_sub (ts : TimeSignature) (x y : MusicTime) : MusicTime :=
  let borrow : ℤ := if y.beat > x.beat then 1 else 0
  let new_beat : ℚ :=
    (if y.beat > x.beat then x.beat + (ts.beatsPerMeasure : ℚ) else x.beat) - y.beat
  let new_measure : ℕ := (((x.measure : ℤ) - (y.measure : ℤ) - borrow) % (u32Size : ℤ)).toNat
  let m := Beat.as_music_time new_beat ts
  ⟨m.measure + new_measure, m.beat⟩

/-! ### Basic facts about the time model -/

theorem as_music_time_beat_nonneg (b : ℚ) (ts : TimeSignature)
    (hn : 0 < ts.beatsPerMeasure) : 0 ≤ (Beat.as_music_time b ts).beat := by
  have hn' : (0 : ℚ) < (ts.beatsPerMeasure : ℚ) := by exact_mod_cast hn
  have h := Int.floor_le (b / (ts.beatsPerMeasure : ℚ))
  have : (ts.beatsPerMeasure : ℚ) * ⌊b / (ts.beatsPerMeasure : ℚ)⌋ ≤ b := by
    rw [mul_comm]
    calc (⌊b / (ts.beatsPerMeasure : ℚ)⌋ : ℚ) * (ts.beatsPerMeasure : ℚ)
        ≤ (b / (ts.beatsPerMeasure : ℚ)) * (ts.beatsPerMeasure : ℚ) := by
          exact mul_le_mul_of_nonneg_right h (le_of_lt hn')
      _ = b := by field_simp
  simp only [Beat.as_music_time]
  linarith

theorem as_music_time_beat_lt (b : ℚ) (ts : TimeSignature)
    (hn : 0 < ts.beatsPerMeasure) :
    (Beat.as_music_time b ts).beat < (ts.beatsPerMeasure : ℚ) := by
  have hn' : (0 : ℚ) < (ts.beatsPerMeasure : ℚ) := by exact_mod_cast hn
  have h := Int.lt_floor_add_one (b / (ts.beatsPerMeasure : ℚ))
  have : b < (ts.beatsPerMeasure : ℚ) * ⌊b / (ts.beatsPerMeasure : ℚ)⌋ + (ts.beatsPerMeasure : ℚ) := by
    have := mul_lt_mul_of_pos_right h hn'
    rw [div_mul_cancel₀ _ (ne_of_gt hn')] at this
    linarith [this]
  simp only [Beat.as_music_time]
  linarith

theorem total_beats_as_music_time (b : ℚ) (ts : TimeSignature)
    (hn : 0 < ts.beatsPerMeasure) (hb : 0 ≤ b) :
    total_beats ts (Beat.as_music_time b ts) = b := by
  have hn' : (0 : ℚ) < (ts.beatsPerMeasure : ℚ) := by exact_mod_cast hn
  have hfl : (0 : ℤ) ≤ ⌊b / (ts.beatsPerMeasure : ℚ)⌋ := by
    apply Int.floor_nonneg.mpr
    positivity
  have hcast : ((⌊b / (ts.beatsPerMeasure : ℚ)⌋.toNat : ℕ) : ℚ)
      = ((⌊b / (ts.beatsPerMeasure : ℚ)⌋ : ℤ) : ℚ) := by
    exact_mod_cast Int.toNat_of_nonneg hfl
  simp only [total_beats, Beat.as_music_time]
  rw [hcast]
  ring

/-- A `MusicTime` satisfies the representation invariant for `ts` when its
beat lies in `[0, beatsPerMeasure)`. -/
def normalized (ts : TimeSignature) (t : MusicTime) : Prop :=
  0 ≤ t.beat ∧ t.beat < (ts.beatsPerMeasure : ℚ)

theorem as_music_time_normalized (b : ℚ) (ts : TimeSignature)
    (hn : 0 < ts.beatsPerMeasure) : normalized ts (Beat.as_music_time b ts) :=
  ⟨as_music_time_beat_nonneg b ts hn, as_music_time_beat_lt b ts hn⟩

theorem as_music_time_total_beats (ts : TimeSignature) (t : MusicTime)
    (hn : 0 < ts.beatsPerMeasure) (ht : normalized ts t) :
    Beat.as_music_time (total_beats ts t) ts = t := by
  obtain ⟨h0, h1⟩ := ht
  have hn' : (0 : ℚ) < (ts.beatsPerMeasure : ℚ) := by exact_mod_cast hn
  have hfl : ⌊total_beats ts t / (ts.beatsPerMeasure : ℚ)⌋ = (t.measure : ℤ) := by
    rw [Int.floor_eq_iff]
    constructor
    · rw [le_div_iff₀ hn']
      simp only [total_beats]
      push_cast
      nlinarith
    · rw [div_lt_iff₀ hn']
      simp only [total_beats]
      push_cast
      nlinarith
  simp only [Beat.as_music_time, hfl]
  refine congrArg₂ MusicTime.mk ?_ ?_
  · simp
  · simp only [total_beats]
    push_cast
    ring

theorem normalized_total_beats_inj (ts : TimeSignature) (x y : MusicTime)
    (hn : 0 < ts.beatsPerMeasure) (hx : normalized ts x) (hy : normalized ts y)
    (h : total_beats ts x = total_beats ts y) : x = y := by
  have := as_music_time_total_beats ts x hn hx
  have := as_music_time_total_beats ts y hn hy
  rw [← as_music_time_total_beats ts x hn hx, ← as_music_time_total_beats ts y hn hy, h]

theorem music_time_add_eq (ts : TimeSignature) (x y : MusicTime)
    (hn : 0 < ts.beatsPerMeasure) (hb : 0 ≤ x.beat + y.beat) :
    music_time_add ts x y = Beat.as_music_time (total_beats ts x + total_beats ts y) ts := by
  have hn' : (0 : ℚ) < (ts.beatsPerMeasure : ℚ) := by exact_mod_cast hn
  have key : (total_beats ts x + total_beats ts y)
      = (((x.measure + y.measure : ℕ) : ℤ) : ℚ) * (ts.beatsPerMeasure : ℚ) + (x.beat + y.beat) := by
    simp only [total_beats]; push_cast; ring
  have hfl : ⌊(total_beats ts x + total_beats ts y) / (ts.beatsPerMeasure : ℚ)⌋
      = ((x.measure + y.measure : ℕ) : ℤ) + ⌊(x.beat + y.beat) / (ts.beatsPerMeasure : ℚ)⌋ := by
    rw [key, add_div, mul_div_cancel_right₀ _ (ne_of_gt hn')]
    exact Int.floor_int_add _ _
  have hfl0 : (0 : ℤ) ≤ ⌊(x.beat + y.beat) / (ts.beatsPerMeasure : ℚ)⌋ := by
    apply Int.floor_nonneg.mpr; positivity
  simp only [music_time_add, Beat.as_music_time, hfl]
  refine congrArg₂ MusicTime.mk ?_ ?_
  · -- measure component
    rw [Int.toNat_add (by positivity) hfl0]
    omega
  · -- beat component
    rw [key]
    push_cast
    ring

theorem total_beats_nonneg (ts : TimeSignature) (t : MusicTime) (h : 0 ≤ t.beat) :
    0 ≤ total_beats ts t := by
  simp only [total_beats]
  positivity

theorem music_time_le_iff (ts : TimeSignature) (x y : MusicTime)
    (hn : 0 < ts.beatsPerMeasure) (hx : normalized ts x) (hy : normalized ts y) :
    x ≤ y ↔ total_beats ts x ≤ total_beats ts y := by
  obtain ⟨hx0, hx1⟩ := hx
  obtain ⟨hy0, hy1⟩ := hy
  have hn' : (0 : ℚ) < (ts.beatsPerMeasure : ℚ) := by exact_mod_cast hn
  rw [MusicTime.le_def]
  constructor
  · rintro (h | ⟨h, hb⟩)
    · have hc : (x.measure : ℚ) + 1 ≤ (y.measure : ℚ) := by exact_mod_cast h
      simp only [total_beats]
      nlinarith
    · simp only [total_beats, h]
      linarith
  · intro h
    rcases lt_trichotomy x.measure y.measure with hm | hm | hm
    · exact Or.inl hm
    · refine Or.inr ⟨hm, ?_⟩
      simp only [total_beats, hm] at h
      linarith
    · exfalso
      have hc : (y.measure : ℚ) + 1 ≤ (x.measure : ℚ) := by exact_mod_cast hm
      simp only [total_beats] at h
      nlinarith

theorem music_time_lt_iff (ts : TimeSignature) (x y : MusicTime)
    (hn : 0 < ts.beatsPerMeasure) (hx : normalized ts x) (hy : normalized ts y) :
    x < y ↔ total_beats ts x < total_beats ts y := by
  rw [lt_iff_not_le, music_time_le_iff ts y x hn hy hx, lt_iff_not_le]

theorem as_music_time_of_lt (b : ℚ) (ts : TimeSignature)
    (h0 : 0 ≤ b) (h1 : b < (ts.beatsPerMeasure : ℚ)) :
    Beat.as_music_time b ts = ⟨0, b⟩ := by
  have hn' : (0 : ℚ) < (ts.beatsPerMeasure : ℚ) := lt_of_le_of_lt h0 h1
  have hfl : ⌊b / (ts.beatsPerMeasure : ℚ)⌋ = 0 := by
    rw [Int.floor_eq_zero_iff]
    constructor
    · positivity
    · rw [div_lt_one hn']
      exact lt_of_lt_of_le h1 (by norm_num)
  simp [Beat.as_music_time, hfl]

/-- Characterisation of `Sub<MusicTime> for MusicTimeWithSignature` inside the
`u32` range: when the subtraction does not go below measure 0 and both
operands satisfy the representation invariant, the result is the
normalisation of the difference of total beat counts. -/
theorem music_time_sub_eq (ts : TimeSignature) (x y : MusicTime)
    (hn : 0 < ts.beatsPerMeasure) (hx : normalized ts x) (hy : normalized ts y)
    (hyx : y ≤ x) (hm : x.measure < u32Size) :
    music_time_sub ts x y = Beat.as_music_time (total_beats ts x - total_beats ts y) ts := by
  obtain ⟨hx0, hx1⟩ := hx
  obtain ⟨hy0, hy1⟩ := hy
  have hn' : (0 : ℚ) < (ts.beatsPerMeasure : ℚ) := by exact_mod_cast hn
  rw [MusicTime.le_def] at hyx
  by_cases hb : y.beat > x.beat
  · -- borrow one measure
    have hmm : y.measure < x.measure := by
      rcases hyx with h | ⟨h, h2⟩
      · exact h
      · exact absurd h2 (not_le.mpr hb)
    have hnb0 : 0 ≤ x.beat + (ts.beatsPerMeasure : ℚ) - y.beat := by linarith
    have hnb1 : x.beat + (ts.beatsPerMeasure : ℚ) - y.beat < (ts.beatsPerMeasure : ℚ) := by
      linarith
    have hwrap : (((x.measure : ℤ) - (y.measure : ℤ) - 1) % (u32Size : ℤ)).toNat
        = x.measure - y.measure - 1 := by
      have h1 : (0 : ℤ) ≤ (x.measure : ℤ) - (y.measure : ℤ) - 1 := by
        omega
      have h2 : (x.measure : ℤ) - (y.measure : ℤ) - 1 < (u32Size : ℤ) := by
        have : (x.measure : ℤ) < (u32Size : ℤ) := by exact_mod_cast hm
        omega
      rw [Int.emod_eq_of_lt h1 h2]
      omega
    have hdiff : total_beats ts x - total_beats ts y
        = ((x.measure - y.measure - 1 : ℕ) : ℚ) * (ts.beatsPerMeasure : ℚ)
          + (x.beat + (ts.beatsPerMeasure : ℚ) - y.beat) := by
      have hc : ((x.measure - y.measure - 1 : ℕ) : ℚ)
          = (x.measure : ℚ) - (y.measure : ℚ) - 1 := by
        have h1 : ((x.measure - y.measure - 1 : ℕ) : ℤ)
            = (x.measure : ℤ) - (y.measure : ℤ) - 1 := by omega
        exact_mod_cast h1
      rw [hc]
      simp only [total_beats]
      ring
    have hrhs : Beat.as_music_time (total_beats ts x - total_beats ts y) ts
        = ⟨x.measure - y.measure - 1, x.beat + (ts.beatsPerMeasure : ℚ) - y.beat⟩ := by
      rw [hdiff]
      exact as_music_time_total_beats ts
        ⟨x.measure - y.measure - 1, x.beat + (ts.beatsPerMeasure : ℚ) - y.beat⟩ hn
        ⟨hnb0, hnb1⟩
    rw [hrhs]
    simp only [music_time_sub, if_pos hb, hwrap]
    rw [as_music_time_of_lt _ ts hnb0 hnb1]
    simp
  · -- no borrow
    have hble : y.beat ≤ x.beat := not_lt.mp hb
    have hmm : y.measure ≤ x.measure := by
      rcases hyx with h | ⟨h, _⟩
      · exact le_of_lt h
      · exact le_of_eq h
    have hnb0 : 0 ≤ x.beat - y.beat := by linarith
    have hnb1 : x.beat - y.beat < (ts.beatsPerMeasure : ℚ) := by linarith
    have hwrap : (((x.measure : ℤ) - (y.measure : ℤ) - 0) % (u32Size : ℤ)).toNat
        = x.measure - y.measure := by
      have h1 : (0 : ℤ) ≤ (x.measure : ℤ) - (y.measure : ℤ) - 0 := by omega
      have h2 : (x.measure : ℤ) - (y.measure : ℤ) - 0 < (u32Size : ℤ) := by
        have : (x.measure : ℤ) < (u32Size : ℤ) := by exact_mod_cast hm
        omega
      rw [Int.emod_eq_of_lt h1 h2]
      omega
    have hdiff : total_beats ts x - total_beats ts y
        = ((x.measure - y.measure : ℕ) : ℚ) * (ts.beatsPerMeasure : ℚ)
          + (x.beat - y.beat) := by
      rw [Nat.cast_sub hmm]
      simp only [total_beats]
      ring
    have hrhs : Beat.as_music_time (total_beats ts x - total_beats ts y) ts
        = ⟨x.measure - y.measure, x.beat - y.beat⟩ := by
      rw [hdiff]
      exact as_music_time_total_beats ts ⟨x.measure - y.measure, x.beat - y.beat⟩ hn
        ⟨hnb0, hnb1⟩
    rw [hrhs]
    simp only [music_time_sub, if_neg hb, hwrap]
    rw [as_music_time_of_lt _ ts hnb0 hnb1]
    simp

theorem total_beats_sub (ts : TimeSignature) (x y : MusicTime)
    (hn : 0 < ts.beatsPerMeasure) (hx : normalized ts x) (hy : normalized ts y)
    (hyx : y ≤ x) (hm : x.measure < u32Size) :
    total_beats ts (music_time_sub ts x y) = total_beats ts x - total_beats ts y := by
  rw [music_time_sub_eq ts x y hn hx hy hyx hm]
  apply total_beats_as_music_time _ _ hn
  have h := (music_time_le_iff ts y x hn hy hx).mp hyx
  linarith

theorem total_beats_add (ts : TimeSignature) (x y : MusicTime)
    (hn : 0 < ts.beatsPerMeasure) (hx : 0 ≤ x.beat) (hy : 0 ≤ y.beat) :
    total_beats ts (music_time_add ts x y) = total_beats ts x + total_beats ts y := by
  rw [music_time_add_eq ts x y hn (by linarith)]
  apply total_beats_as_music_time _ _ hn
  have := total_beats_nonneg ts x hx
  have := total_beats_nonneg ts y hy
  linarith

theorem music_time_add_normalized (ts : TimeSignature) (x y : MusicTime)
    (hn : 0 < ts.beatsPerMeasure) :
    normalized ts (music_time_add ts x y) := by
  simp only [music_time_add]
  exact ⟨as_music_time_beat_nonneg _ ts hn, as_music_time_beat_lt _ ts hn⟩

theorem music_time_sub_normalized (ts : TimeSignature) (x y : MusicTime)
    (hn : 0 < ts.beatsPerMeasure) :
    normalized ts (music_time_sub ts x y) := by
  simp only [music_time_sub]
  exact ⟨as_music_time_beat_nonneg _ ts hn, as_music_time_beat_lt _ ts hn⟩

/-- **C1.** For every `TimeSignature` with `beatsPerMeasure > 0` and every
pair of `MusicTime` values whose beat components lie in
`[0, beatsPerMeasure)`, the results of `MusicTime` addition and of
subtraction (when the subtraction does not go below measure 0, i.e.
`y ≤ x`) again have their beat component in `[0, beatsPerMeasure)`: both
operations route their beat result through `as_music_time`, so the
representation invariant is preserved by every arithmetic operation. -/
theorem c1_arithmetic_preserves_invariant (ts : TimeSignature) (x y : MusicTime)
    (hn : 0 < ts.beatsPerMeasure) (hx : normalized ts x) (hy : normalized ts y) :
    normalized ts (music_time_add ts x y) ∧
      (y ≤ x → normalized ts (music_time_sub ts x y)) :=
  ⟨music_time_add_normalized ts x y hn,
    fun _ => music_time_sub_normalized ts x y hn⟩

/-- Witness for C1 at `4/4`, `x = (1 measure, 3 beats)`, `y = (0, 2 beats)`. -/
theorem c1_witness :
    normalized TimeSignature.common
        (music_time_add TimeSignature.common ⟨1, 3⟩ ⟨0, 2⟩) ∧
      normalized TimeSignature.common
        (music_time_sub TimeSignature.common ⟨1, 3⟩ ⟨0, 2⟩) := by
  have h := c1_arithmetic_preserves_invariant TimeSignature.common ⟨1, 3⟩ ⟨0, 2⟩
    (by norm_num [TimeSignature.common])
    (by constructor <;> norm_num [TimeSignature.common])
    (by constructor <;> norm_num [TimeSignature.common])
  refine ⟨h.1, h.2 ?_⟩
  rw [MusicTime.le_def]
  left
  norm_num

/-- **C7.** `MusicTime` subtraction that goes below measure 0 is *not*
surfaced as an explicit error: the `Sub` impl returns a plain `MusicTime`,
and the `u32` measure subtraction underflows.  In release builds this wraps
around (as modelled here: `(0,0) - (1,0) = (2^32 - 1, 0)`); in debug builds
the same subtraction panics.  Either way the result is an
implementation-defined wraparound value or a crash, never an error value,
so the claim fails on the code. -/
theorem c7_sub_underflow_wraps :
    music_time_sub TimeSignature.common ⟨0, 0⟩ ⟨1, 0⟩ = ⟨u32Size - 1, 0⟩ := by
  have h : Beat.as_music_time ((0 : ℚ) - 0) TimeSignature.common = ⟨0, 0⟩ := by
    rw [show ((0 : ℚ) - 0) = 0 from by norm_num]
    exact as_music_time_of_lt 0 TimeSignature.common le_rfl (by norm_num [TimeSignature.common])
  simp only [music_time_sub]
  rw [if_neg (by norm_num), if_neg (by norm_num)]
  rw [h]
  refine congrArg₂ MusicTime.mk ?_ rfl
  decide

/-! ## Compositions — src/backend/src/composition.rs -/

/-- The closed instrument enumeration. -/
inductive Instrument where
  | SineWave
  | Piano
  | Bass
  | BongoHigh
  | BongoLow
  | Shaker1
  | Shaker2
deriving DecidableEq, Repr

/-- The instruments in declaration order (used to enumerate the
`HashMap<Instrument, Track>`; all verified properties are independent of
this order). -/
def instrumentList : List Instrument :=
  [.SineWave, .Piano, .Bass, .BongoHigh, .BongoLow, .Shaker1, .Shaker2]

theorem mem_instrumentList (i : Instrument) : i ∈ instrumentList := by
  cases i <;> simp [instrumentList]

/-- `Pitch(pub Octave, pub NoteNum)` with `Octave = i8`, `NoteNum = u8`. -/
structure Pitch where
  octave : ℤ
  noteNum : ℕ
deriving DecidableEq, Repr

/-- `Volume(pub u32)` -/
structure Volume where
  val : ℕ
deriving DecidableEq, Repr

/-- `Event { start, duration, volume, pitch }` -/
structure Event where
  start : MusicTime
  duration : ℚ
  volume : Volume
  pitch : Pitch
deriving DecidableEq, Repr

/-- The derived lexicographic `Ord` on `Event`
(start, then duration, then volume, then pitch). -/
def event_le (a b : Event) : Bool :=
  if a.start ≠ b.start then decide (a.start ≤ b.start)
  else if a.duration ≠ b.duration then decide (a.duration ≤ b.duration)
  else if a.volume.val ≠ b.volume.val then decide (a.volume.val ≤ b.volume.val)
  else if a.pitch.octave ≠ b.pitch.octave then decide (a.pitch.octave ≤ b.pitch.octave)
  else decide (a.pitch.noteNum ≤ b.pitch.noteNum)

/-- `Vec::sort` on events (a stable sort by the derived `Ord`). -/
def sort_events (es : List Event) : List Event := es.mergeSort event_le

inductive TrackId where
  | Instrument (i : Instrument)
  | Custom (n : ℕ)
deriving DecidableEq, Repr

structure Track where
  identifier : TrackId
  instrument : Instrument
  events : List Event
  rests : List Event
deriving DecidableEq, Repr

/-- `Event::get_end`: `start.with(ts) + duration.as_music_time(ts)`. -/
def Event.get_end (e : Event) (ts : TimeSignature) : MusicTime :=
  music_time_add ts e.start (Beat.as_music_time e.duration ts)

/-- `min_option` from composition.rs. -/
def min_option (a b : Option MusicTime) : Option MusicTime :=
  match a, b with
  | some x, some y => some (min x y)
  | some x, none => some x
  | none, some y => some y
  | none, none => none

/-- `max_option` from composition.rs. -/
def max_option (a b : Option MusicTime) : Option MusicTime :=
  match a, b with
  | some x, some y => some (max x y)
  | some x, none => some x
  | none, some y => some y
  | none, none => none

/-- `Iterator::min` over a list of `MusicTime`s.  (`MusicTime` has a total
order with structural equality, so the value is independent of how ties are
broken.) -/
def list_min : List MusicTime → Option MusicTime
  | [] => none
  | x :: xs =>
    match list_min xs with
    | none => some x
    | some m => some (min x m)

/-- `Iterator::max` over a list of `MusicTime`s. -/
def list_max : List MusicTime → Option MusicTime
  | [] => none
  | x :: xs =>
    match list_max xs with
    | none => some x
    | some m => some (max x m)

/-- `Track::get_start` -/
def Track.get_start (t : Track) : Option MusicTime :=
  min_option (list_min (t.events.map Event.start)) (list_min (t.rests.map Event.start))

/-- `Track::get_end` -/
def Track.get_end (t : Track) (ts : TimeSignature) : Option MusicTime :=
  max_option (list_max (t.events.map (Event.get_end · ts)))
    (list_max (t.rests.map (Event.get_end · ts)))

/-- `Track::get_events_starting_between`: end is always inclusive, the start
bound is exclusive iff `start_exclusive`; rests are not included; the
result is sorted. -/
def Track.get_events_starting_between (t : Track) (start endT : MusicTime)
    (start_exclusive : Bool) : List Event :=
  if (start_exclusive && decide (start ≥ endT)) || decide (start > endT) then []
  else
    sort_events (t.events.filter fun e =>
      (if start_exclusive then decide (start < e.start) else decide (start ≤ e.start))
        && decide (e.start ≤ endT))

/-- `Track::shift_by` -/
def Track.shift_by (t : Track) (offset : MusicTime) (ts : TimeSignature) : Track :=
  { t with
    events := t.events.map fun e => { e with start := music_time_add ts e.start offset }
    rests := t.rests.map fun e => { e with start := music_time_add ts e.start offset } }

/-- `Add<Track> for Track` (merging two same-instrument tracks; the Rust
code panics on differing instruments, but its only caller keys tracks by
instrument, so the instruments always agree there). -/
def Track.add (t u : Track) : Track :=
  { identifier := t.identifier
    instrument := t.instrument
    events := sort_events (t.events ++ u.events)
    rests := sort_events (t.rests ++ u.rests) }

structure Composition where
  tracks : List Track
  time_signature : TimeSignature
deriving DecidableEq, Repr

/-- `Composition::get_duration`: difference between the latest track end and
the earliest track start, or zero if there are no events at all. -/
def Composition.get_duration (c : Composition) : MusicTime :=
  let start := list_min (c.tracks.filterMap Track.get_start)
  let stop := list_max (c.tracks.filterMap (Track.get_end · c.time_signature))
  match start, stop with
  | some s, some e => music_time_sub c.time_signature e s
  | _, _ => MusicTime.zero

/-- `Composition::shift_by` -/
def Composition.shift_by (c : Composition) (offset : MusicTime) : Composition :=
  { c with tracks := c.tracks.map fun t => t.shift_by offset c.time_signature }

/-! ## Grammar and composer — src/backend/src/cfg/mod.rs -/

inductive NonTerminal where
  | Custom (name : String)
deriving DecidableEq, Repr

inductive TerminalNote where
  | Note (pitch : Pitch)
  | Rest
deriving DecidableEq, Repr

inductive MetaControl where
  | ChangeInstrument (i : Instrument)
  | ChangeVolume (v : Volume)
deriving DecidableEq, Repr

inductive Terminal where
  | Music (duration : MusicTime) (note : TerminalNote)
  | Meta (control : MetaControl)
deriving DecidableEq, Repr

inductive Symbol where
  | NT (nt : NonTerminal)
  | T (t : Terminal)
deriving DecidableEq, Repr

/-- `MusicPrimitive`; a `MusicString` is a list of these.  (`MusicString` is
a newtype over `Vec<MusicPrimitive>` in Rust; the wrapper is dropped.) -/
inductive MusicPrimitive where
  | Simple (sym : Symbol)
  | Split (branches : List (List MusicPrimitive))
  | Repeat (num : ℕ) (content : List MusicPrimitive)

abbrev MusicString := List MusicPrimitive

structure Production where
  lhs : NonTerminal
  rhs : MusicString

structure Grammar where
  start : NonTerminal
  productions : List Production

/-- `ComposeError::MismatchedLengths` carries a formatted message listing
the differing branch durations in Rust; the duration list itself is kept
here in place of its `format!`-rendering. -/
inductive ComposeError where
  | MismatchedLengths (durations : List MusicTime)
deriving DecidableEq, Repr

/-- The `HashMap<Instrument, Track>` accumulated during `compose`. -/
def TrackMap := Instrument → Option Track

/-- `add_event` from `MusicString::compose`. -/
def add_event (tracks : TrackMap) (e : Event) (instrument : Instrument) : TrackMap :=
  fun i =>
    if i = instrument then
      match tracks instrument with
      | some t => some { t with events := t.events ++ [e] }
      | none => some ⟨TrackId.Instrument instrument, instrument, [e], []⟩
    else tracks i

/-- `add_rest_event` from `MusicString::compose`. -/
def add_rest_event (tracks : TrackMap) (e : Event) (instrument : Instrument) : TrackMap :=
  fun i =>
    if i = instrument then
      match tracks instrument with
      | some t => some { t with rests := t.rests ++ [e] }
      | none => some ⟨TrackId.Instrument instrument, instrument, [], [e]⟩
    else tracks i

/-- `add_track` from `MusicString::compose`. -/
def add_track (tracks : TrackMap) (track : Track) : TrackMap :=
  fun i =>
    if i = track.instrument then
      match tracks track.instrument with
      | some mtrack => some (mtrack.add track)
      | none => some track
    else tracks i

/-- `add_composition` from `MusicString::compose`. -/
def add_composition (tracks : TrackMap) (c : Composition) : TrackMap :=
  c.tracks.foldl add_track tracks

/-- `HashMap::into_values().collect()`, enumerating the closed instrument
type in declaration order. -/
def tracksToList (m : TrackMap) : List Track :=
  instrumentList.filterMap m

/-- The interpreter state threaded through `MusicString::compose`:
the accumulated track map, the cursor, the current instrument and the
current volume. -/
structure CState where
  tracks : TrackMap
  current_mt : MusicTime
  current_instrument : Instrument
  current_volume : Volume

/-- The initial interpreter state of `MusicString::compose`
(lines 163–165): cursor `MusicTime::zero()`, instrument
`starting_instrument.unwrap_or(SineWave)`, volume `Volume(50)`. -/
def initCState (starting_instrument : Option Instrument) : CState :=
  ⟨fun _ => none, MusicTime.zero, starting_instrument.getD Instrument.SineWave, ⟨50⟩⟩

/-- The `MusicPrimitive::Simple` arm of the `compose` loop; returns the
updated state and the duration by which the outer loop advances the
cursor. -/
def compose_simple (ts : TimeSignature) (sym : Symbol) (st : CState) : CState × MusicTime :=
  match sym with
  | .NT _ => (st, MusicTime.zero)
  | .T (.Music duration note) =>
    match note with
    | .Note pitch =>
      ({ st with
          tracks := add_event st.tracks
            ⟨st.current_mt, total_beats ts duration, st.current_volume, pitch⟩
            st.current_instrument },
        duration)
    | .Rest =>
      ({ st with
          tracks := add_rest_event st.tracks
            ⟨st.current_mt, total_beats ts duration, ⟨0⟩, ⟨0, 0⟩⟩
            st.current_instrument },
        duration)
  | .T (.Meta control) =>
    match control with
    | .ChangeInstrument i => ({ st with current_instrument := i }, MusicTime.zero)
    | .ChangeVolume v => ({ st with current_volume := v }, MusicTime.zero)

/-- The non-recursive tail of the `MusicPrimitive::Split` arm of `compose`:
given the branch compositions, shift each by the current cursor, pair it
with its duration, require all durations equal (`uniform_duration`), and on
success merge all branches into the track map and return the common
duration; otherwise fail with `MismatchedLengths` listing the durations. -/
def split_combine (ts : TimeSignature) (st : CState) (comps0 : List Composition) :
    Except ComposeError (CState × MusicTime) :=
  let comps := comps0.map fun c =>
    let c' := c.shift_by st.current_mt
    (c'.get_duration, c')
  let uniform : Option MusicTime :=
    match comps with
    | [] => some MusicTime.zero
    | (d, _) :: _ => if comps.all fun p => decide (p.1 = d) then some d else none
  match uniform with
  | some dur =>
    .ok ({ st with
            tracks := comps.foldl (fun tks p => add_composition tks p.2) st.tracks },
          dur)
  | none => .error (.MismatchedLengths (comps.map Prod.fst))

/-- The non-recursive tail of the `MusicPrimitive::Repeat` arm of `compose`:
replay the once-composed content `num` times, each replica shifted by the
accumulated offset, and advance by `num` additions of the duration. -/
def repeat_combine (ts : TimeSignature) (st : CState) (num : ℕ) (composed : Composition) :
    CState × MusicTime :=
  let duration := composed.get_duration
  let result := (List.range num).foldl
    (fun (p : TrackMap × MusicTime) _ =>
      (add_composition p.1 (composed.shift_by p.2), music_time_add ts p.2 duration))
    (st.tracks, st.current_mt)
  let total_duration := (List.range num).foldl
    (fun td _ => music_time_add ts td duration) MusicTime.zero
  ({ st with tracks := result.1 }, total_duration)

mutual

/-- The main loop of `MusicString::compose`: process each primitive in turn,
then advance the cursor by the primitive's duration
(`current_mt = current_mt.with(ts) + duration`). -/
def compose_string (ts : TimeSignature) : MusicString → CState → Except ComposeError CState
  | [], st => .ok st
  | mp :: rest, st =>
    match compose_prim ts mp st with
    | .error e => .error e
    | .ok (st', duration) =>
      compose_string ts rest
        { st' with current_mt := music_time_add ts st'.current_mt duration }
termination_by ms st => (sizeOf ms, 0)
decreasing_by all_goals (first | (simp_wf; omega) | simp_wf | omega)

/-- One `MusicPrimitive` of the `compose` loop; returns the updated state
and the duration to advance by. -/
def compose_prim (ts : TimeSignature) :
    MusicPrimitive → CState → Except ComposeError (CState × MusicTime)
  | .Simple sym, st => .ok (compose_simple ts sym st)
  | .Split branches, st =>
    -- each branch is composed by the *top-level* compose (fresh cursor and
    -- default volume, current instrument passed along), then shifted by the
    -- current cursor; the first error aborts (`err_first`)
    match compose_branches ts branches st.current_instrument with
    | .error e => .error e
    | .ok comps0 => split_combine ts st comps0
  | .Repeat num content, st =>
    -- compose the content once, then replay the fixed result `num` times,
    -- shifting each replica by the accumulated offset
    match compose ts content (some st.current_instrument) with
    | .error e => .error e
    | .ok composed => .ok (repeat_combine ts st num composed)
termination_by mp st => (sizeOf mp, 0)
decreasing_by all_goals (first | (simp_wf; omega) | simp_wf | omega)

/-- Branch composition for `Split` (`err_first`: compose each branch with
the top-level `compose`, aborting at the first error). -/
def compose_branches (ts : TimeSignature) :
    List MusicString → Instrument → Except ComposeError (List Composition)
  | [], _ => .ok []
  | b :: bs, instr =>
    match compose ts b (some instr) with
    | .error e => .error e
    | .ok c =>
      match compose_branches ts bs instr with
      | .error e => .error e
      | .ok cs => .ok (c :: cs)
termination_by bs i => (sizeOf bs, 0)
decreasing_by all_goals (first | (simp_wf; omega) | simp_wf | omega)

/-- `MusicString::compose`. -/
def compose (ts : TimeSignature) (s : MusicString) (starting_instrument : Option Instrument) :
    Except ComposeError Composition :=
  match compose_string ts s (initCState starting_instrument) with
  | .error e => .error e
  | .ok st => .ok ⟨tracksToList st.tracks, ts⟩
termination_by (sizeOf s, 1)
decreasing_by all_goals (first | (simp_wf; omega) | simp_wf | omega)

end

/-- `Grammar::get_production`: the first production whose left-hand side
matches. -/
def Grammar.get_production (g : Grammar) (nt : NonTerminal) : Option Production :=
  g.productions.find? fun p => decide (p.lhs = nt)

/-- `Grammar::get_production_random`: all matching productions, one picked
uniformly at random.  The `thread_rng` sample is modelled as an explicit
natural number (taken modulo the number of matches, as `gen_range`
does). -/
def Grammar.get_production_random (g : Grammar) (nt : NonTerminal) (sample : ℕ) :
    Option Production :=
  let ps := g.productions.filter fun p => decide (p.lhs = nt)
  if ps.isEmpty then none else ps[sample % ps.length]?

mutual

/-- `MusicString::parallel_rewrite`.  The hidden `thread_rng` is modelled as
an explicit stream of samples, threaded through the rewrite and consumed
only when `random` is true; the function returns the rewritten string
together with the unconsumed remainder of the stream.  A `NonTerminal`
without a production is dropped (with a diagnostic in Rust). -/
def parallel_rewrite (g : Grammar) (random : Bool) :
    MusicString → List ℕ → MusicString × List ℕ
  | [], σ => ([], σ)
  | mp :: rest, σ =>
    match mp with
    | .Simple (.NT nt) =>
      let pick : Option Production × List ℕ :=
        if random then (g.get_production_random nt (σ.headD 0), σ.tail)
        else (g.get_production nt, σ)
      match pick.1 with
      | some p =>
        let r := parallel_rewrite g random rest pick.2
        (p.rhs ++ r.1, r.2)
      | none =>
        parallel_rewrite g random rest pick.2
    | .Simple x =>
      let r := parallel_rewrite g random rest σ
      (.Simple x :: r.1, r.2)
    | .Split branches =>
      let b := rewrite_branches g random branches σ
      let r := parallel_rewrite g random rest b.2
      (.Split b.1 :: r.1, r.2)
    | .Repeat num content =>
      let c := parallel_rewrite g random content σ
      let r := parallel_rewrite g random rest c.2
      (.Repeat num c.1 :: r.1, r.2)
termination_by s σ => sizeOf s
decreasing_by all_goals (first | (simp_wf; omega) | simp_wf | omega)

/-- Recursive rewriting of the branches of a `Split`. -/
def rewrite_branches (g : Grammar) (random : Bool) :
    List MusicString → List ℕ → List MusicString × List ℕ
  | [], σ => ([], σ)
  | b :: bs, σ =>
    let b' := parallel_rewrite g random b σ
    let bs' := rewrite_branches g random bs b'.2
    (b'.1 :: bs'.1, bs'.2)
termination_by bs σ => sizeOf bs
decreasing_by all_goals (first | (simp_wf; omega) | simp_wf | omega)

end

/-! ### C6 — determinism of non-random rewriting -/

mutual

/-- With `random = false`, rewriting never consumes the sample stream. -/
theorem parallel_rewrite_false_snd (g : Grammar) :
    (s : MusicString) → (σ : List ℕ) → (parallel_rewrite g false s σ).2 = σ
  | [], σ => by simp [parallel_rewrite]
  | .Simple (.NT nt) :: rest, σ => by
    rw [parallel_rewrite]
    cases h : g.get_production nt with
    | none =>
      simp only [if_neg (Bool.false_ne_true), h]
      exact parallel_rewrite_false_snd g rest σ
    | some p =>
      simp only [if_neg (Bool.false_ne_true), h]
      exact parallel_rewrite_false_snd g rest σ
  | .Simple (.T t) :: rest, σ => by
    simp only [parallel_rewrite]
    exact parallel_rewrite_false_snd g rest _
  | .Split branches :: rest, σ => by
    rw [parallel_rewrite]
    rw [rewrite_branches_false_snd g branches σ]
    exact parallel_rewrite_false_snd g rest σ
  | .Repeat num content :: rest, σ => by
    rw [parallel_rewrite]
    rw [parallel_rewrite_false_snd g content σ]
    exact parallel_rewrite_false_snd g rest σ
termination_by s σ => sizeOf s
decreasing_by all_goals (first | (simp_wf; omega) | simp_wf | omega)

theorem rewrite_branches_false_snd (g : Grammar) :
    (bs : List MusicString) → (σ : List ℕ) → (rewrite_branches g false bs σ).2 = σ
  | [], σ => by simp [rewrite_branches]
  | b :: bs, σ => by
    rw [rewrite_branches]
    rw [parallel_rewrite_false_snd g b σ]
    exact rewrite_branches_false_snd g bs σ
termination_by bs σ => sizeOf bs
decreasing_by all_goals (first | (simp_wf; omega) | simp_wf | omega)

end

mutual

/-- With `random = false`, the rewritten string does not depend on the
sample stream. -/
theorem parallel_rewrite_false_fst (g : Grammar) :
    (s : MusicString) → (σ₁ σ₂ : List ℕ) →
      (parallel_rewrite g false s σ₁).1 = (parallel_rewrite g false s σ₂).1
  | [], σ₁, σ₂ => by simp [parallel_rewrite]
  | .Simple (.NT nt) :: rest, σ₁, σ₂ => by
    rw [parallel_rewrite, parallel_rewrite]
    cases h : g.get_production nt with
    | none =>
      simp only [if_neg (Bool.false_ne_true), h]
      exact parallel_rewrite_false_fst g rest σ₁ σ₂
    | some p =>
      simp only [if_neg (Bool.false_ne_true), h]
      rw [parallel_rewrite_false_fst g rest σ₁ σ₂]
  | .Simple (.T t) :: rest, σ₁, σ₂ => by
    simp only [parallel_rewrite]
    rw [parallel_rewrite_false_fst g rest σ₁ σ₂]
  | .Split branches :: rest, σ₁, σ₂ => by
    rw [parallel_rewrite, parallel_rewrite]
    rw [rewrite_branches_false_snd g branches σ₁, rewrite_branches_false_snd g branches σ₂]
    rw [rewrite_branches_false_fst g branches σ₁ σ₂]
    rw [parallel_rewrite_false_fst g rest σ₁ σ₂]
  | .Repeat num content :: rest, σ₁, σ₂ => by
    rw [parallel_rewrite, parallel_rewrite]
    rw [parallel_rewrite_false_snd g content σ₁, parallel_rewrite_false_snd g content σ₂]
    rw [parallel_rewrite_false_fst g content σ₁ σ₂]
    rw [parallel_rewrite_false_fst g rest σ₁ σ₂]
termination_by s σ₁ σ₂ => sizeOf s
decreasing_by all_goals (first | (simp_wf; omega) | simp_wf | omega)

theorem rewrite_branches_false_fst (g : Grammar) :
    (bs : List MusicString) → (σ₁ σ₂ : List ℕ) →
      (rewrite_branches g false bs σ₁).1 = (rewrite_branches g false bs σ₂).1
  | [], σ₁, σ₂ => by simp [rewrite_branches]
  | b :: bs, σ₁, σ₂ => by
    rw [rewrite_branches, rewrite_branches]
    rw [parallel_rewrite_false_snd g b σ₁, parallel_rewrite_false_snd g b σ₂]
    rw [parallel_rewrite_false_fst g b σ₁ σ₂]
    rw [rewrite_branches_false_fst g bs σ₁ σ₂]
termination_by bs σ₁ σ₂ => sizeOf bs
decreasing_by all_goals (first | (simp_wf; omega) | simp_wf | omega)

end

/-- **C6.** `parallel_rewrite` called with `random = false` is
deterministic: for every grammar and input `MusicString` the output is
independent of the random source (modelled as an explicit sample stream,
which the non-random path never consumes); each `NonTerminal` is replaced
via `get_production`, which by definition takes the *first* production
whose left-hand side matches. -/
theorem c6_parallel_rewrite_deterministic (g : Grammar) (s : MusicString)
    (σ₁ σ₂ : List ℕ) :
    (parallel_rewrite g false s σ₁).1 = (parallel_rewrite g false s σ₂).1 :=
  parallel_rewrite_false_fst g s σ₁ σ₂

/-! ## Scheduler — src/src/scheduler.rs

The scheduler converts elapsed seconds to a `MusicTime` with the
floating-point `MusicTime::from_seconds` and converts the selected events
back to seconds at the end of each poll; both conversions are `f32`
computations outside this embedding.  The poll is therefore modelled from
the already-converted `current_music_time` onwards, and the per-track
*event selection* (which is exact rational/`MusicTime` arithmetic, lines
58–93 of scheduler.rs) is what the claims below are about. -/

instance (ts : TimeSignature) (t : MusicTime) : Decidable (normalized ts t) :=
  inferInstanceAs (Decidable (_ ∧ _))

/-- `Sub<MusicTime> for MusicTimeWithSignature` from src/src/time.rs — the
implementation `Scheduler::get_next_events_and_update` calls.  It computes
`measure - measure2` and `beat - beat2` as *unsigned* subtractions, and its
subsequent `while new_beat < 0` borrow loop is dead code (a `Ratio<u32>` is
never negative), so whenever `measure2 > measure` or `beat2 > beat` the
subtraction panics in a debug build / wraps to an unspecified value in a
release build; both underflow paths are modelled as `none`.  On the
in-range inputs the dead loop is skipped: the beat difference is normalised
by `as_music_time` and its carry added to the measure difference. -/
def music_time_sub_src (ts : TimeSignature) (x y : MusicTime) : Option MusicTime :=
  if y.measure ≤ x.measure ∧ y.beat ≤ x.beat then
    some ⟨(Beat.as_music_time (x.beat - y.beat) ts).measure + (x.measure - y.measure),
      (Beat.as_music_time (x.beat - y.beat) ts).beat⟩
  else none

theorem music_time_sub_src_eq (ts : TimeSignature) (x y : MusicTime)
    (hm : y.measure ≤ x.measure) (hb : y.beat ≤ x.beat) :
    music_time_sub_src ts x y
      = some ⟨(Beat.as_music_time (x.beat - y.beat) ts).measure + (x.measure - y.measure),
          (Beat.as_music_time (x.beat - y.beat) ts).beat⟩ := by
  unfold music_time_sub_src
  rw [if_pos ⟨hm, hb⟩]

theorem music_time_sub_src_normalized (ts : TimeSignature) (x y z : MusicTime)
    (hn : 0 < ts.beatsPerMeasure) (hz : music_time_sub_src ts x y = some z) :
    normalized ts z := by
  unfold music_time_sub_src at hz
  split at hz
  · rw [Option.some.injEq] at hz
    subst hz
    exact ⟨as_music_time_beat_nonneg _ ts hn, as_music_time_beat_lt _ ts hn⟩
  · cases hz

theorem total_beats_sub_src (ts : TimeSignature) (x y z : MusicTime)
    (hn : 0 < ts.beatsPerMeasure) (hm : y.measure ≤ x.measure) (hb : y.beat ≤ x.beat)
    (hz : music_time_sub_src ts x y = some z) :
    total_beats ts z = total_beats ts x - total_beats ts y := by
  rw [music_time_sub_src_eq ts x y hm hb, Option.some.injEq] at hz
  subst hz
  have h1 := total_beats_as_music_time (x.beat - y.beat) ts hn (by linarith)
  have hc : ((x.measure - y.measure : ℕ) : ℚ) = (x.measure : ℚ) - (y.measure : ℚ) :=
    Nat.cast_sub hm
  simp only [total_beats] at h1 ⊢
  push_cast
  rw [hc]
  ring_nf
  ring_nf at h1
  linarith

/-- The region on which the scheduler's `while current > loop_end`
normalisation loop runs without crashing and terminates: the loop guard
must hold, the signature must be positive, both times must satisfy the
representation invariant, the loop length must be positive (a zero
`loop_time` makes the Rust loop run forever), and the beat subtraction must
be borrow-free (`loop_end.beat ≤ cur.beat`) — on a beat borrow
`music_time_sub_src` underflows and the poll crashes. -/
def loop_guard (ts : TimeSignature) (loop_end cur : MusicTime) : Prop :=
  loop_end < cur ∧ 0 < ts.beatsPerMeasure ∧ normalized ts cur ∧ normalized ts loop_end ∧
    0 < total_beats ts loop_end ∧ loop_end.beat ≤ cur.beat

instance (ts : TimeSignature) (le' cur : MusicTime) : Decidable (loop_guard ts le' cur) :=
  inferInstanceAs (Decidable (_ ∧ _))

/-- The `while current_music_time > loop_end` loop at the top of
`Scheduler::get_next_events_and_update` (also reused for the lookahead
window end), built on the scheduler crate's own subtraction
`music_time_sub_src`: repeatedly subtract `loop_end` while strictly
greater.  The result is `none` when the loop body is reached outside
`loop_guard`: either the subtraction underflows (debug panic, release
garbage) or the degenerate parameters make the Rust loop run forever. -/
def loop_normalize (ts : TimeSignature) (loop_end cur : MusicTime) : Option MusicTime :=
  if h : loop_guard ts loop_end cur then
    match h2 : music_time_sub_src ts cur loop_end with
    | some cur2 => loop_normalize ts loop_end cur2
    | none => none
  else if loop_end < cur then none
  else some cur
termination_by (⌊total_beats ts cur / total_beats ts loop_end⌋).toNat
decreasing_by
  simp_wf
  obtain ⟨hlt, hn, hcur, hloop, hpos, hbb⟩ := h
  have hml : loop_end.measure ≤ cur.measure := by
    rcases (MusicTime.lt_def loop_end cur).mp hlt with h3 | ⟨h3, _⟩
    · exact le_of_lt h3
    · exact le_of_eq h3
  have hsub := total_beats_sub_src ts cur loop_end cur2 hn hml hbb h2
  have hble := (music_time_lt_iff ts loop_end cur hn hloop hcur).mp hlt
  rw [hsub]
  have h3 : ⌊(total_beats ts cur - total_beats ts loop_end) / total_beats ts loop_end⌋
      = ⌊total_beats ts cur / total_beats ts loop_end⌋ - 1 := by
    rw [sub_div, div_self (ne_of_gt hpos)]
    exact Int.floor_sub_one _
  have h4 : (1 : ℤ) ≤ ⌊total_beats ts cur / total_beats ts loop_end⌋ := by
    apply Int.le_floor.mpr
    rw [show ((1 : ℤ) : ℚ) = 1 from rfl, le_div_iff₀ hpos]
    linarith
  omega

/-- `Scheduler` (the `bpm` field only feeds the seconds conversions, which
are not modelled). -/
structure Scheduler where
  time_signature : TimeSignature
  tracks : List (Track × MusicTime)
  lookahead : MusicTime
  looped : Bool
  loop_time : MusicTime

/-- The (pre-wrap) lookahead window end of a poll:
`end_music_time = current + lookahead` computed from the loop-normalised
current time (called `end_non_looped` in the Rust source); `none` when the
normalisation loop crashes or diverges. -/
def Scheduler.window_end (sch : Scheduler) (current_music_time : MusicTime) :
    Option MusicTime :=
  (loop_normalize sch.time_signature sch.loop_time current_music_time).map
    fun c => music_time_add sch.time_signature c sch.lookahead

/-- `Scheduler::get_next_events_and_update`, modelled at the `MusicTime`
level: loop-normalise the current time, compute the lookahead window end
(wrapping it past the loop end when looping), select each track's events,
and set every cursor to the (possibly wrapped) window end.  Returns the
per-track selected events (in track order) and the updated scheduler, or
`none` when one of the normalisation loops crashes or diverges; the
conversion of each event to a seconds-level `ScheduledSound` and the final
sort are `f32` computations outside the model. -/
def get_next_events_and_update (sch : Scheduler) (current_music_time : MusicTime) :
    Option (List (List Event) × Scheduler) :=
  let ts := sch.time_signature
  let loop_end := sch.loop_time
  (sch.window_end current_music_time).bind fun end_non_looped =>
    let looping := sch.looped && decide (end_non_looped > loop_end)
    (if looping then loop_normalize ts loop_end end_non_looped
      else some end_non_looped).map fun end_music_time =>
      let select := fun (p : Track × MusicTime) =>
        if looping then
          if decide (end_non_looped < p.2) then []
          else if decide (p.2 ≤ end_music_time) then
            p.1.get_events_starting_between p.2 end_music_time true
          else
            p.1.get_events_starting_between p.2 loop_end true
              ++ p.1.get_events_starting_between MusicTime.zero end_music_time false
        else
          p.1.get_events_starting_between p.2 end_music_time true
      (sch.tracks.map select,
        { sch with tracks := sch.tracks.map fun p => (p.1, end_music_time) })

/-- Membership in a start-exclusive window selection. -/
theorem mem_get_events_starting_between (t : Track) (c w : MusicTime) (e : Event) :
    e ∈ t.get_events_starting_between c w true ↔
      e ∈ t.events ∧ c < e.start ∧ e.start ≤ w := by
  unfold Track.get_events_starting_between sort_events
  by_cases hg : ((true && decide (c ≥ w)) || decide (c > w)) = true
  · rw [if_pos hg]
    simp only [List.not_mem_nil, false_iff]
    rintro ⟨_, hlt, hle⟩
    simp only [Bool.true_and, Bool.or_eq_true, decide_eq_true_eq] at hg
    rcases hg with h | h
    · exact absurd (lt_of_lt_of_le hlt hle) (not_lt.mpr h)
    · exact absurd (lt_of_lt_of_le hlt hle) (not_lt.mpr (le_of_lt h))
  · rw [if_neg hg]
    rw [List.mem_mergeSort, List.mem_filter]
    simp [and_assoc]

/-- **C4.** On a poll that completes its loop normalisation (window end
`w`) and whose lookahead window does not wrap the loop boundary
(`looped && w > loop_time` is false), the poll succeeds, each track
contributes exactly the events whose start satisfies
`cursor < start ≤ w` (start-exclusive at the cursor, inclusive at the
window end), and afterwards every track's cursor is set to `w`, regardless
of which events were selected. -/
theorem c4_nonwrapping_selection (sch : Scheduler) (current_music_time w : MusicTime)
    (hw : sch.window_end current_music_time = some w)
    (hnw : ¬(sch.looped = true ∧ sch.loop_time < w)) :
    ∃ sels sch2,
      get_next_events_and_update sch current_music_time = some (sels, sch2)
      ∧ List.Forall₂
          (fun (p : Track × MusicTime) (sel : List Event) =>
            (∀ e ∈ sel, e ∈ p.1.events ∧ p.2 < e.start ∧ e.start ≤ w) ∧
            (∀ e ∈ p.1.events, p.2 < e.start → e.start ≤ w → e ∈ sel))
          sch.tracks sels
      ∧ sch2.tracks = sch.tracks.map fun p => (p.1, w) := by
  have hlf : (sch.looped && decide (w > sch.loop_time)) = false := by
    cases hb : sch.looped
    · simp
    · simp only [Bool.true_and]
      apply decide_eq_false
      intro hlt
      exact hnw ⟨hb, hlt⟩
  refine ⟨sch.tracks.map fun p => p.1.get_events_starting_between p.2 w true,
    { sch with tracks := sch.tracks.map fun p => (p.1, w) }, ?_, ?_, rfl⟩
  · simp only [get_next_events_and_update, hw, Option.bind_eq_bind, Option.some_bind]
    rw [hlf]
    simp only [Bool.false_eq_true, if_false]
    rfl
  · rw [List.forall₂_map_right_iff]
    apply List.forall₂_same.mpr
    intro p _
    constructor
    · intro e he
      exact (mem_get_events_starting_between p.1 p.2 _ e).mp he
    · intro e he hlt hle
      exact (mem_get_events_starting_between p.1 p.2 _ e).mpr ⟨he, hlt, hle⟩

/-- A small concrete scheduler used by the C4 witness: 4/4, one SineWave
track with events at beats 0 and 1, cursor at beat 0, lookahead 1 beat,
not looping. -/
def exampleScheduler : Scheduler :=
  ⟨TimeSignature.common,
    [(⟨TrackId.Instrument Instrument.SineWave, Instrument.SineWave,
        [⟨⟨0, 0⟩, 1, ⟨50⟩, ⟨4, 3⟩⟩, ⟨⟨0, 1⟩, 1, ⟨50⟩, ⟨4, 5⟩⟩], []⟩, ⟨0, 0⟩)],
    MusicTime.beats 1, false, MusicTime.measures 1⟩

/-- Witness for C4 at `exampleScheduler`, polled at music time 0 (the
normalisation loop exits immediately, so the window end is one beat). -/
theorem c4_witness :
    ∃ sels sch2,
      get_next_events_and_update exampleScheduler ⟨0, 0⟩ = some (sels, sch2)
      ∧ List.Forall₂
          (fun (p : Track × MusicTime) (sel : List Event) =>
            (∀ e ∈ sel, e ∈ p.1.events ∧ p.2 < e.start ∧
                e.start ≤ (⟨0, 1⟩ : MusicTime)) ∧
            (∀ e ∈ p.1.events, p.2 < e.start → e.start ≤ (⟨0, 1⟩ : MusicTime) → e ∈ sel))
          exampleScheduler.tracks sels
      ∧ sch2.tracks = exampleScheduler.tracks.map fun p => (p.1, (⟨0, 1⟩ : MusicTime)) := by
  have hnlt : ¬((MusicTime.measures 1) < (⟨0, 0⟩ : MusicTime)) := by
    intro hlt
    rcases (MusicTime.lt_def _ _).mp hlt with h | ⟨h, _⟩
    · exact absurd h (by norm_num [MusicTime.measures])
    · exact absurd h (by norm_num [MusicTime.measures])
  have hln : loop_normalize TimeSignature.common (MusicTime.measures 1) ⟨0, 0⟩
      = some ⟨0, 0⟩ := by
    rw [loop_normalize]
    rw [dif_neg fun hg => hnlt hg.1, if_neg hnlt]
  have hadd : music_time_add TimeSignature.common ⟨0, 0⟩ (MusicTime.beats 1) = ⟨0, 1⟩ := by
    simp only [music_time_add, MusicTime.beats]
    rw [show ((⟨0, 0⟩ : MusicTime).beat + ((1 : ℕ) : ℚ)) = 1 from by norm_num]
    rw [as_music_time_of_lt 1 TimeSignature.common (by norm_num)
      (by norm_num [TimeSignature.common])]
    rfl
  have hw : exampleScheduler.window_end ⟨0, 0⟩ = some ⟨0, 1⟩ := by
    unfold Scheduler.window_end
    rw [show exampleScheduler.time_signature = TimeSignature.common from rfl,
      show exampleScheduler.loop_time = MusicTime.measures 1 from rfl,
      show exampleScheduler.lookahead = MusicTime.beats 1 from rfl,
      hln]
    exact congrArg some hadd
  exact c4_nonwrapping_selection exampleScheduler ⟨0, 0⟩ ⟨0, 1⟩ hw
    (by simp [exampleScheduler])

/-- **C9 (code bug: the normalisation loop crashes on beat borrows).**
The loop condition holds at `loop_time = (0 m, 3 b)`,
`current = (1 m, 1 b)` in 4/4, so the `while` body runs — but the
scheduler crate's own `Sub` subtracts the unsigned `Ratio<u32>` beats
before its dead borrow loop, so `Beat(1) - Beat(3)` underflows: the poll
panics in a debug build (release: wrapped garbage) instead of normalising.
The borrowing subtraction the claim describes (as implemented in the
backend crate) would yield `(0 m, 2 b) ≤ loop_time` and terminate. -/
theorem c9_normalization_underflow :
    (⟨0, 3⟩ : MusicTime) < ⟨1, 1⟩
    ∧ music_time_sub_src TimeSignature.common ⟨1, 1⟩ ⟨0, 3⟩ = none
    ∧ loop_normalize TimeSignature.common ⟨0, 3⟩ ⟨1, 1⟩ = none
    ∧ music_time_sub TimeSignature.common ⟨1, 1⟩ ⟨0, 3⟩ = ⟨0, 2⟩ := by
  have hlt : (⟨0, 3⟩ : MusicTime) < ⟨1, 1⟩ := by
    rw [MusicTime.lt_def]
    left
    norm_num
  have hnb : ¬((⟨0, 3⟩ : MusicTime).beat ≤ (⟨1, 1⟩ : MusicTime).beat) := by norm_num
  refine ⟨hlt, ?_, ?_, ?_⟩
  · unfold music_time_sub_src
    rw [if_neg fun hc => hnb hc.2]
  · rw [loop_normalize]
    rw [dif_neg fun hg => hnb hg.2.2.2.2.2, if_pos hlt]
  · have h : Beat.as_music_time
        (((⟨1, 1⟩ : MusicTime).beat + (TimeSignature.common.beatsPerMeasure : ℚ))
          - (⟨0, 3⟩ : MusicTime).beat) TimeSignature.common = ⟨0, 2⟩ := by
      rw [show (((⟨1, 1⟩ : MusicTime).beat + (TimeSignature.common.beatsPerMeasure : ℚ))
          - (⟨0, 3⟩ : MusicTime).beat) = 2 from by norm_num [TimeSignature.common]]
      exact as_music_time_of_lt 2 TimeSignature.common (by norm_num)
        (by norm_num [TimeSignature.common])
    simp only [music_time_sub]
    rw [if_pos (by norm_num), if_pos (by norm_num)]
    rw [h]
    refine congrArg₂ MusicTime.mk ?_ rfl
    decide

/-! ## Composer proofs

Unfolding lemmas for the mutually recursive `compose` functions, and
invariants of the accumulated track map. -/

theorem compose_string_nil (ts : TimeSignature) (st : CState) :
    compose_string ts [] st = .ok st := by
  rw [compose_string]

theorem compose_string_cons_err (ts : TimeSignature) (mp : MusicPrimitive)
    (rest : MusicString) (st : CState) (e : ComposeError)
    (h : compose_prim ts mp st = .error e) :
    compose_string ts (mp :: rest) st = .error e := by
  rw [compose_string, h]

theorem compose_string_cons_ok (ts : TimeSignature) (mp : MusicPrimitive)
    (rest : MusicString) (st st' : CState) (d : MusicTime)
    (h : compose_prim ts mp st = .ok (st', d)) :
    compose_string ts (mp :: rest) st
      = compose_string ts rest
          { st' with current_mt := music_time_add ts st'.current_mt d } := by
  rw [compose_string, h]

theorem compose_def (ts : TimeSignature) (s : MusicString) (si : Option Instrument) :
    compose ts s si
      = match compose_string ts s (initCState si) with
        | .error e => .error e
        | .ok st => .ok ⟨tracksToList st.tracks, ts⟩ := by
  rw [compose]

/-- Lift a track predicate to `Option Track` (`none` is fine). -/
def opt_track_prop (P : Track → Prop) : Option Track → Prop
  | none => True
  | some t => P t

instance (P : Track → Prop) [DecidablePred P] :
    (o : Option Track) → Decidable (opt_track_prop P o)
  | none => .isTrue trivial
  | some t => inferInstanceAs (Decidable (P t))

/-- All tracks of the map live on instrument `i0` (and each entry is keyed
by its own instrument, which every `compose` operation maintains). -/
def only_instrument (i0 : Instrument) (m : TrackMap) : Prop :=
  ∀ i ∈ instrumentList,
    opt_track_prop (fun t => t.instrument = i0) (m i) ∧ (i ≠ i0 → m i = none)

/-- Every note event of the map has volume `v`. -/
def events_vol (v : Volume) (m : TrackMap) : Prop :=
  ∀ i ∈ instrumentList, opt_track_prop (fun t => ∀ e ∈ t.events, e.volume = v) (m i)

/-- Every rest of the map is recorded with volume 0 and pitch `(0, 0)`. -/
def rests_zero (m : TrackMap) : Prop :=
  ∀ i ∈ instrumentList,
    opt_track_prop (fun t => ∀ e ∈ t.rests, e.volume = ⟨0⟩ ∧ e.pitch = ⟨0, 0⟩) (m i)

def comp_tracks_only (i0 : Instrument) (c : Composition) : Prop :=
  ∀ t ∈ c.tracks, t.instrument = i0

def comp_events_vol (v : Volume) (c : Composition) : Prop :=
  ∀ t ∈ c.tracks, ∀ e ∈ t.events, e.volume = v

def comp_rests_zero (c : Composition) : Prop :=
  ∀ t ∈ c.tracks, ∀ e ∈ t.rests, e.volume = ⟨0⟩ ∧ e.pitch = ⟨0, 0⟩

theorem mem_tracksToList (m : TrackMap) (t : Track) :
    t ∈ tracksToList m ↔ ∃ i ∈ instrumentList, m i = some t := by
  simp [tracksToList, List.mem_filterMap]

theorem only_instrument_tracksToList (i0 : Instrument) (m : TrackMap) (ts : TimeSignature)
    (h : only_instrument i0 m) : comp_tracks_only i0 ⟨tracksToList m, ts⟩ := by
  intro t ht
  obtain ⟨i, hi, hmi⟩ := (mem_tracksToList m t).mp ht
  have := (h i hi).1
  rw [hmi] at this
  exact this

theorem events_vol_tracksToList (v : Volume) (m : TrackMap) (ts : TimeSignature)
    (h : events_vol v m) : comp_events_vol v ⟨tracksToList m, ts⟩ := by
  intro t ht
  obtain ⟨i, hi, hmi⟩ := (mem_tracksToList m t).mp ht
  have := h i hi
  rw [hmi] at this
  exact this

theorem rests_zero_tracksToList (m : TrackMap) (ts : TimeSignature)
    (h : rests_zero m) : comp_rests_zero ⟨tracksToList m, ts⟩ := by
  intro t ht
  obtain ⟨i, hi, hmi⟩ := (mem_tracksToList m t).mp ht
  have := h i hi
  rw [hmi] at this
  exact this

/-! Shifting a composition changes only event start times. -/

theorem comp_tracks_only_shift (i0 : Instrument) (c : Composition) (o : MusicTime)
    (h : comp_tracks_only i0 c) : comp_tracks_only i0 (c.shift_by o) := by
  intro t ht
  simp only [Composition.shift_by, List.mem_map] at ht
  obtain ⟨u, hu, rfl⟩ := ht
  exact h u hu

theorem comp_events_vol_shift (v : Volume) (c : Composition) (o : MusicTime)
    (h : comp_events_vol v c) : comp_events_vol v (c.shift_by o) := by
  intro t ht e he
  simp only [Composition.shift_by, List.mem_map] at ht
  obtain ⟨u, hu, rfl⟩ := ht
  simp only [Track.shift_by, List.mem_map] at he
  obtain ⟨f, hf, rfl⟩ := he
  exact h u hu f hf

theorem comp_rests_zero_shift (c : Composition) (o : MusicTime)
    (h : comp_rests_zero c) : comp_rests_zero (c.shift_by o) := by
  intro t ht e he
  simp only [Composition.shift_by, List.mem_map] at ht
  obtain ⟨u, hu, rfl⟩ := ht
  simp only [Track.shift_by, List.mem_map] at he
  obtain ⟨f, hf, rfl⟩ := he
  exact h u hu f hf

/-! Preservation of the map invariants by the accumulation operations. -/

theorem only_instrument_add_event (i0 : Instrument) (m : TrackMap) (e : Event)
    (h : only_instrument i0 m) : only_instrument i0 (add_event m e i0) := by
  intro i hi
  obtain ⟨h1, h2⟩ := h i hi
  obtain ⟨h1', _⟩ := h i0 (mem_instrumentList i0)
  constructor
  · simp only [add_event]
    by_cases hii : i = i0
    · subst hii
      rw [if_pos rfl]
      cases hm : m i with
      | none => simp [opt_track_prop]
      | some t =>
        rw [hm] at h1'
        simpa [opt_track_prop] using h1'
    · rw [if_neg hii]
      exact h1
  · intro hii
    simp only [add_event, if_neg hii]
    exact h2 hii

theorem only_instrument_add_rest_event (i0 : Instrument) (m : TrackMap) (e : Event)
    (h : only_instrument i0 m) : only_instrument i0 (add_rest_event m e i0) := by
  intro i hi
  obtain ⟨h1, h2⟩ := h i hi
  obtain ⟨h1', _⟩ := h i0 (mem_instrumentList i0)
  constructor
  · simp only [add_rest_event]
    by_cases hii : i = i0
    · subst hii
      rw [if_pos rfl]
      cases hm : m i with
      | none => simp [opt_track_prop]
      | some t =>
        rw [hm] at h1'
        simpa [opt_track_prop] using h1'
    · rw [if_neg hii]
      exact h1
  · intro hii
    simp only [add_rest_event, if_neg hii]
    exact h2 hii

theorem only_instrument_add_track (i0 : Instrument) (m : TrackMap) (t : Track)
    (h : only_instrument i0 m) (ht : t.instrument = i0) :
    only_instrument i0 (add_track m t) := by
  intro i hi
  obtain ⟨h1, h2⟩ := h i hi
  obtain ⟨h1', _⟩ := h t.instrument (mem_instrumentList t.instrument)
  constructor
  · simp only [add_track]
    by_cases hii : i = t.instrument
    · subst hii
      rw [if_pos rfl]
      cases hm : m t.instrument with
      | none => simpa [opt_track_prop] using ht
      | some mt =>
        rw [hm] at h1'
        simpa [opt_track_prop, Track.add] using h1'
    · rw [if_neg hii]
      exact h1
  · intro hii
    simp only [add_track]
    rw [if_neg]
    · exact h2 hii
    · intro hit
      exact hii (by rw [hit, ht])

theorem only_instrument_add_composition (i0 : Instrument) (m : TrackMap)
    (c : Composition) (h : only_instrument i0 m) (hc : comp_tracks_only i0 c) :
    only_instrument i0 (add_composition m c) := by
  unfold add_composition
  have : ∀ l : List Track, (∀ t ∈ l, t.instrument = i0) →
      ∀ m' : TrackMap, only_instrument i0 m' →
        only_instrument i0 (l.foldl add_track m') := by
    intro l
    induction l with
    | nil => intro _ m' hm'; exact hm'
    | cons t l ih =>
      intro hl m' hm'
      exact ih (fun u hu => hl u (List.mem_cons_of_mem _ hu))
        (add_track m' t) (only_instrument_add_track i0 m' t hm' (hl t (List.mem_cons_self t l)))
  exact this c.tracks hc m h

theorem events_vol_add_event (v : Volume) (m : TrackMap) (e : Event) (i : Instrument)
    (h : events_vol v m) (he : e.volume = v) : events_vol v (add_event m e i) := by
  intro j hj
  have h1 := h j hj
  have h1' := h i (mem_instrumentList i)
  simp only [add_event]
  by_cases hji : j = i
  · subst hji
    rw [if_pos rfl]
    cases hm : m j with
    | none =>
      simp only [opt_track_prop]
      intro f hf
      simp only [List.mem_singleton] at hf
      subst hf
      exact he
    | some t =>
      rw [hm] at h1
      simp only [opt_track_prop] at h1 ⊢
      intro f hf
      rw [List.mem_append] at hf
      rcases hf with hf | hf
      · exact h1 f hf
      · simp only [List.mem_singleton] at hf
        subst hf
        exact he
  · rw [if_neg hji]
    exact h1

theorem events_vol_add_rest_event (v : Volume) (m : TrackMap) (e : Event) (i : Instrument)
    (h : events_vol v m) : events_vol v (add_rest_event m e i) := by
  intro j hj
  have h1 := h j hj
  simp only [add_rest_event]
  by_cases hji : j = i
  · subst hji
    rw [if_pos rfl]
    cases hm : m j with
    | none => simp [opt_track_prop]
    | some t =>
      rw [hm] at h1
      simpa [opt_track_prop] using h1
  · rw [if_neg hji]
    exact h1

theorem events_vol_add_track (v : Volume) (m : TrackMap) (t : Track)
    (h : events_vol v m) (ht : ∀ e ∈ t.events, e.volume = v) :
    events_vol v (add_track m t) := by
  intro j hj
  have h1 := h j hj
  have h1' := h t.instrument (mem_instrumentList t.instrument)
  simp only [add_track]
  by_cases hji : j = t.instrument
  · subst hji
    rw [if_pos rfl]
    cases hm : m t.instrument with
    | none => simpa [opt_track_prop] using ht
    | some mt =>
      rw [hm] at h1
      simp only [opt_track_prop, Track.add, sort_events] at h1 ⊢
      intro f hf
      rw [List.mem_mergeSort, List.mem_append] at hf
      rcases hf with hf | hf
      · exact h1 f hf
      · exact ht f hf
  · rw [if_neg hji]
    exact h1

theorem events_vol_add_composition (v : Volume) (m : TrackMap) (c : Composition)
    (h : events_vol v m) (hc : comp_events_vol v c) :
    events_vol v (add_composition m c) := by
  unfold add_composition
  have : ∀ l : List Track, (∀ t ∈ l, ∀ e ∈ t.events, e.volume = v) →
      ∀ m' : TrackMap, events_vol v m' → events_vol v (l.foldl add_track m') := by
    intro l
    induction l with
    | nil => intro _ m' hm'; exact hm'
    | cons t l ih =>
      intro hl m' hm'
      exact ih (fun u hu => hl u (List.mem_cons_of_mem _ hu))
        (add_track m' t) (events_vol_add_track v m' t hm' (hl t (List.mem_cons_self t l)))
  exact this c.tracks hc m h

theorem rests_zero_add_event (m : TrackMap) (e : Event) (i : Instrument)
    (h : rests_zero m) : rests_zero (add_event m e i) := by
  intro j hj
  have h1 := h j hj
  simp only [add_event]
  by_cases hji : j = i
  · subst hji
    rw [if_pos rfl]
    cases hm : m j with
    | none => simp [opt_track_prop]
    | some t =>
      rw [hm] at h1
      simpa [opt_track_prop] using h1
  · rw [if_neg hji]
    exact h1

theorem rests_zero_add_rest_event (m : TrackMap) (e : Event) (i : Instrument)
    (h : rests_zero m) (he : e.volume = ⟨0⟩ ∧ e.pitch = ⟨0, 0⟩) :
    rests_zero (add_rest_event m e i) := by
  intro j hj
  have h1 := h j hj
  simp only [add_rest_event]
  by_cases hji : j = i
  · subst hji
    rw [if_pos rfl]
    cases hm : m j with
    | none =>
      simp only [opt_track_prop]
      intro f hf
      simp only [List.mem_singleton] at hf
      subst hf
      exact he
    | some t =>
      rw [hm] at h1
      simp only [opt_track_prop] at h1 ⊢
      intro f hf
      rw [List.mem_append] at hf
      rcases hf with hf | hf
      · exact h1 f hf
      · simp only [List.mem_singleton] at hf
        subst hf
        exact he
  · rw [if_neg hji]
    exact h1

theorem rests_zero_add_track (m : TrackMap) (t : Track)
    (h : rests_zero m) (ht : ∀ e ∈ t.rests, e.volume = ⟨0⟩ ∧ e.pitch = ⟨0, 0⟩) :
    rests_zero (add_track m t) := by
  intro j hj
  have h1 := h j hj
  simp only [add_track]
  by_cases hji : j = t.instrument
  · subst hji
    rw [if_pos rfl]
    cases hm : m t.instrument with
    | none => simpa [opt_track_prop] using ht
    | some mt =>
      rw [hm] at h1
      simp only [opt_track_prop, Track.add, sort_events] at h1 ⊢
      intro f hf
      rw [List.mem_mergeSort, List.mem_append] at hf
      rcases hf with hf | hf
      · exact h1 f hf
      · exact ht f hf
  · rw [if_neg hji]
    exact h1

theorem compose_prim_simple (ts : TimeSignature) (sym : Symbol) (st : CState) :
    compose_prim ts (.Simple sym) st = .ok (compose_simple ts sym st) := by
  rw [compose_prim]

theorem compose_prim_split (ts : TimeSignature) (branches : List MusicString) (st : CState) :
    compose_prim ts (.Split branches) st
      = match compose_branches ts branches st.current_instrument with
        | .error e => .error e
        | .ok comps0 => split_combine ts st comps0 := by
  rw [compose_prim]

theorem compose_prim_repeat (ts : TimeSignature) (num : ℕ) (content : MusicString)
    (st : CState) :
    compose_prim ts (.Repeat num content) st
      = match compose ts content (some st.current_instrument) with
        | .error e => .error e
        | .ok composed => .ok (repeat_combine ts st num composed) := by
  rw [compose_prim]

/-- On success, `split_combine` leaves the cursor/instrument/volume alone
and folds the shifted branch compositions into the track map. -/
theorem split_combine_ok (ts : TimeSignature) (st : CState) (comps0 : List Composition)
    (st2 : CState) (d : MusicTime) (h : split_combine ts st comps0 = .ok (st2, d)) :
    st2 = { st with
      tracks := comps0.foldl
        (fun tks c => add_composition tks (c.shift_by st.current_mt)) st.tracks } := by
  simp only [split_combine] at h
  rw [List.foldl_map] at h
  split at h
  · rw [Except.ok.injEq, Prod.mk.injEq] at h
    exact h.1.symm
  · cases h

theorem repeat_combine_fst (ts : TimeSignature) (st : CState) (num : ℕ)
    (composed : Composition) :
    (repeat_combine ts st num composed).1
      = { st with
          tracks := ((List.range num).foldl
            (fun (p : TrackMap × MusicTime) _ =>
              (add_composition p.1 (composed.shift_by p.2),
                music_time_add ts p.2 composed.get_duration))
            (st.tracks, st.current_mt)).1 } := rfl

theorem rests_zero_add_composition (m : TrackMap) (c : Composition)
    (h : rests_zero m) (hc : comp_rests_zero c) :
    rests_zero (add_composition m c) := by
  unfold add_composition
  have : ∀ l : List Track, (∀ t ∈ l, ∀ e ∈ t.rests, e.volume = ⟨0⟩ ∧ e.pitch = ⟨0, 0⟩) →
      ∀ m' : TrackMap, rests_zero m' → rests_zero (l.foldl add_track m') := by
    intro l
    induction l with
    | nil => intro _ m' hm'; exact hm'
    | cons t l ih =>
      intro hl m' hm'
      exact ih (fun u hu => hl u (List.mem_cons_of_mem _ hu))
        (add_track m' t) (rests_zero_add_track m' t hm' (hl t (List.mem_cons_self t l)))
  exact this c.tracks hc m h

/-! ### C10 — the `compose` defaults -/

mutual

/-- No `ChangeInstrument` meta-control occurs anywhere in the primitive. -/
def noCI_prim : MusicPrimitive → Bool
  | .Simple (.T (.Meta (.ChangeInstrument _))) => false
  | .Simple _ => true
  | .Split branches => noCI_branches branches
  | .Repeat _ content => noCI_string content
termination_by mp => sizeOf mp
decreasing_by all_goals (first | (simp_wf; omega) | simp_wf | omega)

def noCI_string : MusicString → Bool
  | [] => true
  | mp :: rest => noCI_prim mp && noCI_string rest
termination_by s => sizeOf s
decreasing_by all_goals (first | (simp_wf; omega) | simp_wf | omega)

def noCI_branches : List MusicString → Bool
  | [] => true
  | b :: bs => noCI_string b && noCI_branches bs
termination_by bs => sizeOf bs
decreasing_by all_goals (first | (simp_wf; omega) | simp_wf | omega)

end

mutual

/-- No `ChangeVolume` meta-control occurs anywhere in the primitive. -/
def noCV_prim : MusicPrimitive → Bool
  | .Simple (.T (.Meta (.ChangeVolume _))) => false
  | .Simple _ => true
  | .Split branches => noCV_branches branches
  | .Repeat _ content => noCV_string content
termination_by mp => sizeOf mp
decreasing_by all_goals (first | (simp_wf; omega) | simp_wf | omega)

def noCV_string : MusicString → Bool
  | [] => true
  | mp :: rest => noCV_prim mp && noCV_string rest
termination_by s => sizeOf s
decreasing_by all_goals (first | (simp_wf; omega) | simp_wf | omega)

def noCV_branches : List MusicString → Bool
  | [] => true
  | b :: bs => noCV_string b && noCV_branches bs
termination_by bs => sizeOf bs
decreasing_by all_goals (first | (simp_wf; omega) | simp_wf | omega)

end

theorem only_instrument_fold_shift (i0 : Instrument) (o : MusicTime)
    (l : List Composition) :
    ∀ m : TrackMap, only_instrument i0 m → (∀ c ∈ l, comp_tracks_only i0 c) →
      only_instrument i0
        (l.foldl (fun tks c => add_composition tks (c.shift_by o)) m) := by
  induction l with
  | nil => intro m hm _; exact hm
  | cons c l ih =>
    intro m hm hl
    exact ih _ (only_instrument_add_composition i0 m _ hm
        (comp_tracks_only_shift i0 c o (hl c (List.mem_cons_self c l))))
      (fun u hu => hl u (List.mem_cons_of_mem _ hu))

theorem events_vol_fold_shift (v : Volume) (o : MusicTime) (l : List Composition) :
    ∀ m : TrackMap, events_vol v m → (∀ c ∈ l, comp_events_vol v c) →
      events_vol v (l.foldl (fun tks c => add_composition tks (c.shift_by o)) m) := by
  induction l with
  | nil => intro m hm _; exact hm
  | cons c l ih =>
    intro m hm hl
    exact ih _ (events_vol_add_composition v m _ hm
        (comp_events_vol_shift v c o (hl c (List.mem_cons_self c l))))
      (fun u hu => hl u (List.mem_cons_of_mem _ hu))

theorem rests_zero_fold_shift (o : MusicTime) (l : List Composition) :
    ∀ m : TrackMap, rests_zero m → (∀ c ∈ l, comp_rests_zero c) →
      rests_zero (l.foldl (fun tks c => add_composition tks (c.shift_by o)) m) := by
  induction l with
  | nil => intro m hm _; exact hm
  | cons c l ih =>
    intro m hm hl
    exact ih _ (rests_zero_add_composition m _ hm
        (comp_rests_zero_shift c o (hl c (List.mem_cons_self c l))))
      (fun u hu => hl u (List.mem_cons_of_mem _ hu))

theorem only_instrument_repeat_fold (i0 : Instrument) (ts : TimeSignature)
    (composed : Composition) (hc : comp_tracks_only i0 composed) (l : List ℕ) :
    ∀ acc : TrackMap × MusicTime, only_instrument i0 acc.1 →
      only_instrument i0
        ((l.foldl (fun (p : TrackMap × MusicTime) _ =>
            (add_composition p.1 (composed.shift_by p.2),
              music_time_add ts p.2 composed.get_duration)) acc).1) := by
  induction l with
  | nil => intro acc hm; exact hm
  | cons x l ih =>
    intro acc hm
    exact ih _ (only_instrument_add_composition i0 acc.1 _ hm
      (comp_tracks_only_shift i0 composed acc.2 hc))

theorem events_vol_repeat_fold (v : Volume) (ts : TimeSignature)
    (composed : Composition) (hc : comp_events_vol v composed) (l : List ℕ) :
    ∀ acc : TrackMap × MusicTime, events_vol v acc.1 →
      events_vol v
        ((l.foldl (fun (p : TrackMap × MusicTime) _ =>
            (add_composition p.1 (composed.shift_by p.2),
              music_time_add ts p.2 composed.get_duration)) acc).1) := by
  induction l with
  | nil => intro acc hm; exact hm
  | cons x l ih =>
    intro acc hm
    exact ih _ (events_vol_add_composition v acc.1 _ hm
      (comp_events_vol_shift v composed acc.2 hc))

theorem rests_zero_repeat_fold (ts : TimeSignature)
    (composed : Composition) (hc : comp_rests_zero composed) (l : List ℕ) :
    ∀ acc : TrackMap × MusicTime, rests_zero acc.1 →
      rests_zero
        ((l.foldl (fun (p : TrackMap × MusicTime) _ =>
            (add_composition p.1 (composed.shift_by p.2),
              music_time_add ts p.2 composed.get_duration)) acc).1) := by
  induction l with
  | nil => intro acc hm; exact hm
  | cons x l ih =>
    intro acc hm
    exact ih _ (rests_zero_add_composition acc.1 _ hm
      (comp_rests_zero_shift composed acc.2 hc))

mutual

/-- While no `ChangeInstrument` is interpreted, every event stays on the
current instrument's track and the current instrument is unchanged. -/
theorem only_instrument_compose_string (ts : TimeSignature) (i0 : Instrument) :
    (s : MusicString) → (st : CState) →
      noCI_string s = true → st.current_instrument = i0 →
      only_instrument i0 st.tracks →
      ∀ st2, compose_string ts s st = .ok st2 →
        st2.current_instrument = i0 ∧ only_instrument i0 st2.tracks
  | [], st => by
    intro _ hinstr htr st2 h
    rw [compose_string_nil] at h
    injection h with h2
    subst h2
    exact ⟨hinstr, htr⟩
  | mp :: rest, st => by
    intro hno hinstr htr st2 h
    rw [noCI_string, Bool.and_eq_true] at hno
    cases hp : compose_prim ts mp st with
    | error e =>
      rw [compose_string_cons_err ts mp rest st e hp] at h
      cases h
    | ok p =>
      obtain ⟨st', dur⟩ := p
      rw [compose_string_cons_ok ts mp rest st st' dur hp] at h
      have hmid := only_instrument_compose_prim ts i0 mp st hno.1 hinstr htr st' dur hp
      exact only_instrument_compose_string ts i0 rest
        { st' with current_mt := music_time_add ts st'.current_mt dur }
        hno.2 hmid.1 hmid.2 st2 h
termination_by s st => (sizeOf s, 0)
decreasing_by all_goals (first | (simp_wf; omega) | simp_wf | omega)

theorem only_instrument_compose_prim (ts : TimeSignature) (i0 : Instrument) :
    (mp : MusicPrimitive) → (st : CState) →
      noCI_prim mp = true → st.current_instrument = i0 →
      only_instrument i0 st.tracks →
      ∀ st2 d, compose_prim ts mp st = .ok (st2, d) →
        st2.current_instrument = i0 ∧ only_instrument i0 st2.tracks
  | .Simple sym, st => by
    intro hno hinstr htr st2 d h
    rw [compose_prim_simple] at h
    cases sym with
    | NT nt =>
      simp only [compose_simple] at h
      rw [Except.ok.injEq, Prod.mk.injEq] at h
      obtain ⟨h1, _⟩ := h
      subst h1
      exact ⟨hinstr, htr⟩
    | T t =>
      cases t with
      | Music dur note =>
        cases note with
        | Note pitch =>
          simp only [compose_simple] at h
          rw [Except.ok.injEq, Prod.mk.injEq] at h
          obtain ⟨h1, _⟩ := h
          subst h1
          refine ⟨hinstr, ?_⟩
          rw [hinstr]
          exact only_instrument_add_event i0 st.tracks _ htr
        | Rest =>
          simp only [compose_simple] at h
          rw [Except.ok.injEq, Prod.mk.injEq] at h
          obtain ⟨h1, _⟩ := h
          subst h1
          refine ⟨hinstr, ?_⟩
          rw [hinstr]
          exact only_instrument_add_rest_event i0 st.tracks _ htr
      | Meta c =>
        cases c with
        | ChangeInstrument i => simp [noCI_prim] at hno
        | ChangeVolume v =>
          simp only [compose_simple] at h
          rw [Except.ok.injEq, Prod.mk.injEq] at h
          obtain ⟨h1, _⟩ := h
          subst h1
          exact ⟨hinstr, htr⟩
  | .Split branches, st => by
    intro hno hinstr htr st2 d h
    rw [compose_prim_split] at h
    cases hcb : compose_branches ts branches st.current_instrument with
    | error e => rw [hcb] at h; cases h
    | ok comps0 =>
      rw [hcb] at h
      rw [hinstr] at hcb
      have hall := only_instrument_compose_branches ts i0 branches
        (by rw [noCI_prim] at hno; exact hno) comps0 hcb
      have hst2 := split_combine_ok ts st comps0 st2 d h
      subst hst2
      exact ⟨hinstr, only_instrument_fold_shift i0 st.current_mt comps0 st.tracks htr hall⟩
  | .Repeat num content, st => by
    intro hno hinstr htr st2 d h
    rw [compose_prim_repeat] at h
    cases hcc : compose ts content (some st.current_instrument) with
    | error e => rw [hcc] at h; cases h
    | ok composed =>
      rw [hcc] at h
      rw [Except.ok.injEq] at h
      rw [hinstr] at hcc
      have hc := only_instrument_compose_top ts i0 content
        (by rw [noCI_prim] at hno; exact hno) composed hcc
      have h1 : (repeat_combine ts st num composed).1 = st2 := by rw [h]
      rw [repeat_combine_fst] at h1
      constructor
      · rw [← h1]
        exact hinstr
      · rw [← h1]
        exact only_instrument_repeat_fold i0 ts composed hc (List.range num)
          (st.tracks, st.current_mt) htr
termination_by mp st => (sizeOf mp, 0)
decreasing_by all_goals (first | (simp_wf; omega) | simp_wf | omega)

theorem only_instrument_compose_branches (ts : TimeSignature) (i0 : Instrument) :
    (bs : List MusicString) → noCI_branches bs = true →
      ∀ comps, compose_branches ts bs i0 = .ok comps →
        ∀ c ∈ comps, comp_tracks_only i0 c
  | [] => by
    intro _ comps h c hc
    rw [compose_branches] at h
    injection h with h2
    subst h2
    simp at hc
  | b :: bs => by
    intro hno comps h c hc
    rw [noCI_branches, Bool.and_eq_true] at hno
    rw [compose_branches] at h
    cases hb : compose ts b (some i0) with
    | error e => rw [hb] at h; cases h
    | ok cb =>
      rw [hb] at h
      cases hbs : compose_branches ts bs i0 with
      | error e => rw [hbs] at h; cases h
      | ok cs =>
        rw [hbs] at h
        injection h with h2
        subst h2
        rw [List.mem_cons] at hc
        rcases hc with rfl | hc
        · exact only_instrument_compose_top ts i0 b hno.1 c hb
        · exact only_instrument_compose_branches ts i0 bs hno.2 cs hbs c hc
termination_by bs => (sizeOf bs, 0)
decreasing_by all_goals (first | (simp_wf; omega) | simp_wf | omega)

theorem only_instrument_compose_top (ts : TimeSignature) (i0 : Instrument)
    (s : MusicString) (hno : noCI_string s = true) :
    ∀ c, compose ts s (some i0) = .ok c → comp_tracks_only i0 c := by
  intro c h
  rw [compose_def] at h
  cases hcs : compose_string ts s (initCState (some i0)) with
  | error e => rw [hcs] at h; cases h
  | ok st2 =>
    rw [hcs] at h
    injection h with h2
    subst h2
    have hmain := only_instrument_compose_string ts i0 s (initCState (some i0)) hno rfl
      (by intro i _; exact ⟨trivial, fun _ => rfl⟩) st2 hcs
    exact only_instrument_tracksToList i0 st2.tracks ts hmain.2
termination_by (sizeOf s, 1)
decreasing_by all_goals (first | (simp_wf; omega) | simp_wf | omega)

end

mutual

/-- While no `ChangeVolume` is interpreted, every note event carries the
default volume 50 and the current volume is unchanged.  (Branches and
repeat contents are composed from a fresh state whose volume is reset to
50, so the invariant carries through the recursion.) -/
theorem vol50_compose_string (ts : TimeSignature) :
    (s : MusicString) → (st : CState) →
      noCV_string s = true → st.current_volume = ⟨50⟩ →
      events_vol ⟨50⟩ st.tracks →
      ∀ st2, compose_string ts s st = .ok st2 →
        st2.current_volume = ⟨50⟩ ∧ events_vol ⟨50⟩ st2.tracks
  | [], st => by
    intro _ hvol htr st2 h
    rw [compose_string_nil] at h
    injection h with h2
    subst h2
    exact ⟨hvol, htr⟩
  | mp :: rest, st => by
    intro hno hvol htr st2 h
    rw [noCV_string, Bool.and_eq_true] at hno
    cases hp : compose_prim ts mp st with
    | error e =>
      rw [compose_string_cons_err ts mp rest st e hp] at h
      cases h
    | ok p =>
      obtain ⟨st', dur⟩ := p
      rw [compose_string_cons_ok ts mp rest st st' dur hp] at h
      have hmid := vol50_compose_prim ts mp st hno.1 hvol htr st' dur hp
      exact vol50_compose_string ts rest
        { st' with current_mt := music_time_add ts st'.current_mt dur }
        hno.2 hmid.1 hmid.2 st2 h
termination_by s st => (sizeOf s, 0)
decreasing_by all_goals (first | (simp_wf; omega) | simp_wf | omega)

theorem vol50_compose_prim (ts : TimeSignature) :
    (mp : MusicPrimitive) → (st : CState) →
      noCV_prim mp = true → st.current_volume = ⟨50⟩ →
      events_vol ⟨50⟩ st.tracks →
      ∀ st2 d, compose_prim ts mp st = .ok (st2, d) →
        st2.current_volume = ⟨50⟩ ∧ events_vol ⟨50⟩ st2.tracks
  | .Simple sym, st => by
    intro hno hvol htr st2 d h
    rw [compose_prim_simple] at h
    cases sym with
    | NT nt =>
      simp only [compose_simple] at h
      rw [Except.ok.injEq, Prod.mk.injEq] at h
      obtain ⟨h1, _⟩ := h
      subst h1
      exact ⟨hvol, htr⟩
    | T t =>
      cases t with
      | Music dur note =>
        cases note with
        | Note pitch =>
          simp only [compose_simple] at h
          rw [Except.ok.injEq, Prod.mk.injEq] at h
          obtain ⟨h1, _⟩ := h
          subst h1
          refine ⟨hvol, ?_⟩
          rw [hvol]
          exact events_vol_add_event ⟨50⟩ st.tracks _ st.current_instrument htr rfl
        | Rest =>
          simp only [compose_simple] at h
          rw [Except.ok.injEq, Prod.mk.injEq] at h
          obtain ⟨h1, _⟩ := h
          subst h1
          exact ⟨hvol, events_vol_add_rest_event ⟨50⟩ st.tracks _ st.current_instrument htr⟩
      | Meta c =>
        cases c with
        | ChangeInstrument i =>
          simp only [compose_simple] at h
          rw [Except.ok.injEq, Prod.mk.injEq] at h
          obtain ⟨h1, _⟩ := h
          subst h1
          exact ⟨hvol, htr⟩
        | ChangeVolume v => simp [noCV_prim] at hno
  | .Split branches, st => by
    intro hno hvol htr st2 d h
    rw [compose_prim_split] at h
    cases hcb : compose_branches ts branches st.current_instrument with
    | error e => rw [hcb] at h; cases h
    | ok comps0 =>
      rw [hcb] at h
      have hall := vol50_compose_branches ts branches
        (by rw [noCV_prim] at hno; exact hno) st.current_instrument comps0 hcb
      have hst2 := split_combine_ok ts st comps0 st2 d h
      subst hst2
      exact ⟨hvol, events_vol_fold_shift ⟨50⟩ st.current_mt comps0 st.tracks htr hall⟩
  | .Repeat num content, st => by
    intro hno hvol htr st2 d h
    rw [compose_prim_repeat] at h
    cases hcc : compose ts content (some st.current_instrument) with
    | error e => rw [hcc] at h; cases h
    | ok composed =>
      rw [hcc] at h
      rw [Except.ok.injEq] at h
      have hc := vol50_compose_top ts content
        (by rw [noCV_prim] at hno; exact hno) (some st.current_instrument) composed hcc
      have h1 : (repeat_combine ts st num composed).1 = st2 := by rw [h]
      rw [repeat_combine_fst] at h1
      constructor
      · rw [← h1]
        exact hvol
      · rw [← h1]
        exact events_vol_repeat_fold ⟨50⟩ ts composed hc (List.range num)
          (st.tracks, st.current_mt) htr
termination_by mp st => (sizeOf mp, 0)
decreasing_by all_goals (first | (simp_wf; omega) | simp_wf | omega)

theorem vol50_compose_branches (ts : TimeSignature) :
    (bs : List MusicString) → noCV_branches bs = true →
      ∀ instr comps, compose_branches ts bs instr = .ok comps →
        ∀ c ∈ comps, comp_events_vol ⟨50⟩ c
  | [] => by
    intro _ instr comps h c hc
    rw [compose_branches] at h
    injection h with h2
    subst h2
    simp at hc
  | b :: bs => by
    intro hno instr comps h c hc
    rw [noCV_branches, Bool.and_eq_true] at hno
    rw [compose_branches] at h
    cases hb : compose ts b (some instr) with
    | error e => rw [hb] at h; cases h
    | ok cb =>
      rw [hb] at h
      cases hbs : compose_branches ts bs instr with
      | error e => rw [hbs] at h; cases h
      | ok cs =>
        rw [hbs] at h
        injection h with h2
        subst h2
        rw [List.mem_cons] at hc
        rcases hc with rfl | hc
        · exact vol50_compose_top ts b hno.1 (some instr) c hb
        · exact vol50_compose_branches ts bs hno.2 instr cs hbs c hc
termination_by bs => (sizeOf bs, 0)
decreasing_by all_goals (first | (simp_wf; omega) | simp_wf | omega)

theorem vol50_compose_top (ts : TimeSignature) (s : MusicString)
    (hno : noCV_string s = true) :
    ∀ si c, compose ts s si = .ok c → comp_events_vol ⟨50⟩ c := by
  intro si c h
  rw [compose_def] at h
  cases hcs : compose_string ts s (initCState si) with
  | error e => rw [hcs] at h; cases h
  | ok st2 =>
    rw [hcs] at h
    injection h with h2
    subst h2
    have hmain := vol50_compose_string ts s (initCState si) hno rfl
      (by intro i _; exact trivial) st2 hcs
    exact events_vol_tracksToList ⟨50⟩ st2.tracks ts hmain.2
termination_by (sizeOf s, 1)
decreasing_by all_goals (first | (simp_wf; omega) | simp_wf | omega)

end

mutual

/-- Rests are always recorded with volume 0 and pitch `(0, 0)`. -/
theorem rests0_compose_string (ts : TimeSignature) :
    (s : MusicString) → (st : CState) →
      rests_zero st.tracks →
      ∀ st2, compose_string ts s st = .ok st2 → rests_zero st2.tracks
  | [], st => by
    intro htr st2 h
    rw [compose_string_nil] at h
    injection h with h2
    subst h2
    exact htr
  | mp :: rest, st => by
    intro htr st2 h
    cases hp : compose_prim ts mp st with
    | error e =>
      rw [compose_string_cons_err ts mp rest st e hp] at h
      cases h
    | ok p =>
      obtain ⟨st', dur⟩ := p
      rw [compose_string_cons_ok ts mp rest st st' dur hp] at h
      have hmid := rests0_compose_prim ts mp st htr st' dur hp
      exact rests0_compose_string ts rest
        { st' with current_mt := music_time_add ts st'.current_mt dur } hmid st2 h
termination_by s st => (sizeOf s, 0)
decreasing_by all_goals (first | (simp_wf; omega) | simp_wf | omega)

theorem rests0_compose_prim (ts : TimeSignature) :
    (mp : MusicPrimitive) → (st : CState) →
      rests_zero st.tracks →
      ∀ st2 d, compose_prim ts mp st = .ok (st2, d) → rests_zero st2.tracks
  | .Simple sym, st => by
    intro htr st2 d h
    rw [compose_prim_simple] at h
    cases sym with
    | NT nt =>
      simp only [compose_simple] at h
      rw [Except.ok.injEq, Prod.mk.injEq] at h
      obtain ⟨h1, _⟩ := h
      subst h1
      exact htr
    | T t =>
      cases t with
      | Music dur note =>
        cases note with
        | Note pitch =>
          simp only [compose_simple] at h
          rw [Except.ok.injEq, Prod.mk.injEq] at h
          obtain ⟨h1, _⟩ := h
          subst h1
          exact rests_zero_add_event st.tracks _ st.current_instrument htr
        | Rest =>
          simp only [compose_simple] at h
          rw [Except.ok.injEq, Prod.mk.injEq] at h
          obtain ⟨h1, _⟩ := h
          subst h1
          exact rests_zero_add_rest_event st.tracks _ st.current_instrument htr ⟨rfl, rfl⟩
      | Meta c =>
        cases c with
        | ChangeInstrument i =>
          simp only [compose_simple] at h
          rw [Except.ok.injEq, Prod.mk.injEq] at h
          obtain ⟨h1, _⟩ := h
          subst h1
          exact htr
        | ChangeVolume v =>
          simp only [compose_simple] at h
          rw [Except.ok.injEq, Prod.mk.injEq] at h
          obtain ⟨h1, _⟩ := h
          subst h1
          exact htr
  | .Split branches, st => by
    intro htr st2 d h
    rw [compose_prim_split] at h
    cases hcb : compose_branches ts branches st.current_instrument with
    | error e => rw [hcb] at h; cases h
    | ok comps0 =>
      rw [hcb] at h
      have hall := rests0_compose_branches ts branches st.current_instrument comps0 hcb
      have hst2 := split_combine_ok ts st comps0 st2 d h
      subst hst2
      exact rests_zero_fold_shift st.current_mt comps0 st.tracks htr hall
  | .Repeat num content, st => by
    intro htr st2 d h
    rw [compose_prim_repeat] at h
    cases hcc : compose ts content (some st.current_instrument) with
    | error e => rw [hcc] at h; cases h
    | ok composed =>
      rw [hcc] at h
      rw [Except.ok.injEq] at h
      have hc := rests0_compose_top ts content (some st.current_instrument) composed hcc
      have h1 : (repeat_combine ts st num composed).1 = st2 := by rw [h]
      rw [repeat_combine_fst] at h1
      rw [← h1]
      exact rests_zero_repeat_fold ts composed hc (List.range num)
        (st.tracks, st.current_mt) htr
termination_by mp st => (sizeOf mp, 0)
decreasing_by all_goals (first | (simp_wf; omega) | simp_wf | omega)

theorem rests0_compose_branches (ts : TimeSignature) :
    (bs : List MusicString) →
      ∀ instr comps, compose_branches ts bs instr = .ok comps →
        ∀ c ∈ comps, comp_rests_zero c
  | [] => by
    intro instr comps h c hc
    rw [compose_branches] at h
    injection h with h2
    subst h2
    simp at hc
  | b :: bs => by
    intro instr comps h c hc
    rw [compose_branches] at h
    cases hb : compose ts b (some instr) with
    | error e => rw [hb] at h; cases h
    | ok cb =>
      rw [hb] at h
      cases hbs : compose_branches ts bs instr with
      | error e => rw [hbs] at h; cases h
      | ok cs =>
        rw [hbs] at h
        injection h with h2
        subst h2
        rw [List.mem_cons] at hc
        rcases hc with rfl | hc
        · exact rests0_compose_top ts b (some instr) c hb
        · exact rests0_compose_branches ts bs instr cs hbs c hc
termination_by bs => (sizeOf bs, 0)
decreasing_by all_goals (first | (simp_wf; omega) | simp_wf | omega)

theorem rests0_compose_top (ts : TimeSignature) (s : MusicString) :
    ∀ si c, compose ts s si = .ok c → comp_rests_zero c := by
  intro si c h
  rw [compose_def] at h
  cases hcs : compose_string ts s (initCState si) with
  | error e => rw [hcs] at h; cases h
  | ok st2 =>
    rw [hcs] at h
    injection h with h2
    subst h2
    have hmain := rests0_compose_string ts s (initCState si)
      (by intro i _; exact trivial) st2 hcs
    exact rests_zero_tracksToList st2.tracks ts hmain
termination_by (sizeOf s, 1)
decreasing_by all_goals (first | (simp_wf; omega) | simp_wf | omega)

end

/-- **C10.** When `compose` is called with `starting_instrument = None`,
the interpreter starts with instrument `SineWave` and volume 50: as long as
no `ChangeInstrument` has been interpreted (i.e. over any prefix free of
`ChangeInstrument`, at any nesting depth), every event is placed on the
`SineWave` instrument's track; as long as no `ChangeVolume` has been
interpreted, every note event has volume 50; and rest events are always
recorded with volume 0 and pitch `(0, 0)`. -/
theorem c10_compose_defaults (ts : TimeSignature) (s : MusicString) :
    (noCI_string s = true →
      ∀ st2, compose_string ts s (initCState none) = .ok st2 →
        st2.current_instrument = Instrument.SineWave ∧
          only_instrument Instrument.SineWave st2.tracks) ∧
    (noCV_string s = true →
      ∀ st2, compose_string ts s (initCState none) = .ok st2 →
        st2.current_volume = ⟨50⟩ ∧ events_vol ⟨50⟩ st2.tracks) ∧
    (∀ c, compose ts s none = .ok c → comp_rests_zero c) := by
  refine ⟨?_, ?_, ?_⟩
  · intro hno st2 h
    exact only_instrument_compose_string ts Instrument.SineWave s (initCState none) hno rfl
      (by intro i _; exact ⟨trivial, fun _ => rfl⟩) st2 h
  · intro hno st2 h
    exact vol50_compose_string ts s (initCState none) hno rfl
      (by intro i _; exact trivial) st2 h
  · intro c h
    exact rests0_compose_top ts s none c h

/-- A note followed by a rest, each one beat long (used by witnesses). -/
def exampleSimpleString : MusicString :=
  [.Simple (.T (.Music ⟨0, 1⟩ (.Note ⟨4, 3⟩))), .Simple (.T (.Music ⟨0, 1⟩ .Rest))]

/-- Witness for C10 on a concrete two-terminal string free of meta
controls. -/
theorem c10_witness :
    (∀ st2, compose_string TimeSignature.common exampleSimpleString (initCState none)
        = .ok st2 →
      st2.current_instrument = Instrument.SineWave ∧
        only_instrument Instrument.SineWave st2.tracks) ∧
    (∀ st2, compose_string TimeSignature.common exampleSimpleString (initCState none)
        = .ok st2 →
      st2.current_volume = ⟨50⟩ ∧ events_vol ⟨50⟩ st2.tracks) ∧
    (∀ c, compose TimeSignature.common exampleSimpleString none = .ok c →
      comp_rests_zero c) := by
  obtain ⟨h1, h2, h3⟩ := c10_compose_defaults TimeSignature.common exampleSimpleString
  exact ⟨h1 (by simp [exampleSimpleString, noCI_string, noCI_prim]),
    h2 (by simp [exampleSimpleString, noCV_string, noCV_prim]), h3⟩

/-! ### C3 — Repeat replays one composition -/

theorem compose_time_signature (ts : TimeSignature) (s : MusicString)
    (si : Option Instrument) (c : Composition) (h : compose ts s si = .ok c) :
    c.time_signature = ts := by
  rw [compose_def] at h
  cases hcs : compose_string ts s (initCState si) with
  | error e => rw [hcs] at h; cases h
  | ok st2 =>
    rw [hcs] at h
    injection h with h2
    subst h2
    rfl

theorem comp_get_duration_normalized (c : Composition)
    (hn : 0 < c.time_signature.beatsPerMeasure) :
    normalized c.time_signature c.get_duration := by
  simp only [Composition.get_duration]
  split
  · exact music_time_sub_normalized _ _ _ hn
  · constructor
    · exact le_refl 0
    · show (0 : ℚ) < _
      exact_mod_cast hn

/-- The accumulator fold of the `Repeat` arm, rewritten with the offsets in
closed form: the `i`-th replica is shifted by the cursor plus `i` times the
content's duration. -/
theorem repeat_fold_characterization (ts : TimeSignature) (composed : Composition)
    (hn : 0 < ts.beatsPerMeasure) (hd0 : 0 ≤ composed.get_duration.beat) (n : ℕ) :
    ∀ (m : TrackMap) (off : MusicTime), normalized ts off →
      ((List.range n).foldl
          (fun (p : TrackMap × MusicTime) _ =>
            (add_composition p.1 (composed.shift_by p.2),
              music_time_add ts p.2 composed.get_duration)) (m, off))
        = ((List.range n).foldl
            (fun tks (i : ℕ) => add_composition tks
              (composed.shift_by (Beat.as_music_time
                (total_beats ts off + (i : ℚ) * total_beats ts composed.get_duration) ts))) m,
          Beat.as_music_time
            (total_beats ts off + n * total_beats ts composed.get_duration) ts) := by
  have hBd : 0 ≤ total_beats ts composed.get_duration :=
    total_beats_nonneg ts _ hd0
  induction n with
  | zero =>
    intro m off hoff
    simp only [List.range_zero, List.foldl_nil, Nat.cast_zero, zero_mul, add_zero]
    rw [as_music_time_total_beats ts off hn hoff]
  | succ n ih =>
    intro m off hoff
    have hBoff : 0 ≤ total_beats ts off := total_beats_nonneg ts off hoff.1
    have hX : 0 ≤ total_beats ts off + (n : ℚ) * total_beats ts composed.get_duration := by
      positivity
    rw [List.range_succ, List.foldl_append, List.foldl_append]
    rw [ih m off hoff]
    simp only [List.foldl_cons, List.foldl_nil]
    refine congrArg₂ Prod.mk rfl ?_
    rw [music_time_add_eq ts _ _ hn]
    · rw [total_beats_as_music_time _ ts hn hX]
      congr 1
      push_cast
      ring
    · have := as_music_time_beat_nonneg
        (total_beats ts off + (n : ℚ) * total_beats ts composed.get_duration) ts hn
      linarith

/-- The `total_duration` fold of the `Repeat` arm equals the normalisation
of `num × duration`. -/
theorem repeat_total_duration_fold (ts : TimeSignature) (d : MusicTime)
    (hn : 0 < ts.beatsPerMeasure) (hd0 : 0 ≤ d.beat) (n : ℕ) :
    (List.range n).foldl (fun td _ => music_time_add ts td d) MusicTime.zero
      = Beat.as_music_time ((n : ℚ) * total_beats ts d) ts := by
  have hBd : 0 ≤ total_beats ts d := total_beats_nonneg ts d hd0
  induction n with
  | zero =>
    simp only [List.range_zero, List.foldl_nil, Nat.cast_zero, zero_mul]
    rw [as_music_time_of_lt 0 ts le_rfl (by exact_mod_cast hn)]
    rfl
  | succ n ih =>
    rw [List.range_succ, List.foldl_append, ih]
    simp only [List.foldl_cons, List.foldl_nil]
    rw [music_time_add_eq ts _ _ hn]
    · rw [total_beats_as_music_time _ ts hn (by positivity)]
      congr 1
      push_cast
      ring
    · have := as_music_time_beat_nonneg ((n : ℚ) * total_beats ts d) ts hn
      linarith

/-- **C3.** `Repeat { num := n, content }` composes `content` exactly once
(the single `composed` value below), and the result is `n` structural
copies of that one composition, the `i`-th copy shifted by the cursor plus
`i × duration(content)`; the cursor advances by `n × duration(content)`
(in particular, for `n = 0`, `List.range 0` is empty — no events are added
— and the cursor is `as_music_time (total_beats cursor)`, i.e. the cursor
itself). -/
theorem c3_repeat_replays_one_composition (ts : TimeSignature) (st : CState) (n : ℕ)
    (content : MusicString) (composed : Composition)
    (hn : 0 < ts.beatsPerMeasure) (hst : normalized ts st.current_mt)
    (h : compose ts content (some st.current_instrument) = .ok composed) :
    compose_string ts [.Repeat n content] st
      = .ok { st with
          tracks := (List.range n).foldl
            (fun tks (i : ℕ) => add_composition tks
              (composed.shift_by (Beat.as_music_time
                (total_beats ts st.current_mt
                  + (i : ℚ) * total_beats ts composed.get_duration) ts)))
            st.tracks,
          current_mt := Beat.as_music_time
            (total_beats ts st.current_mt
              + n * total_beats ts composed.get_duration) ts } := by
  have hts := compose_time_signature ts content (some st.current_instrument) composed h
  have hdn : normalized ts composed.get_duration := by
    have := comp_get_duration_normalized composed (by rw [hts]; exact hn)
    rwa [hts] at this
  have hd0 : 0 ≤ composed.get_duration.beat := hdn.1
  have hBd : 0 ≤ total_beats ts composed.get_duration := total_beats_nonneg ts _ hd0
  have hprim : compose_prim ts (.Repeat n content) st
      = .ok (repeat_combine ts st n composed) := by
    rw [compose_prim_repeat, h]
  rw [compose_string_cons_ok ts _ [] st (repeat_combine ts st n composed).1
    (repeat_combine ts st n composed).2 (by rw [hprim])]
  rw [compose_string_nil]
  have hfold := repeat_fold_characterization ts composed hn hd0 n st.tracks
    st.current_mt hst
  have h1 : (repeat_combine ts st n composed).1
      = { st with
          tracks := (List.range n).foldl
            (fun tks (i : ℕ) => add_composition tks
              (composed.shift_by (Beat.as_music_time
                (total_beats ts st.current_mt
                  + (i : ℚ) * total_beats ts composed.get_duration) ts)))
            st.tracks } := by
    rw [repeat_combine_fst]
    rw [show ((List.range n).foldl
        (fun (p : TrackMap × MusicTime) _ =>
          (add_composition p.1 (composed.shift_by p.2),
            music_time_add ts p.2 composed.get_duration))
        (st.tracks, st.current_mt)).1
      = ((List.range n).foldl
          (fun tks (i : ℕ) => add_composition tks
            (composed.shift_by (Beat.as_music_time
              (total_beats ts st.current_mt
                + (i : ℚ) * total_beats ts composed.get_duration) ts))) st.tracks)
      from congrArg Prod.fst hfold]
  have h2 : (repeat_combine ts st n composed).2
      = Beat.as_music_time ((n : ℚ) * total_beats ts composed.get_duration) ts := by
    show (List.range n).foldl (fun td _ => music_time_add ts td composed.get_duration)
        MusicTime.zero = _
    exact repeat_total_duration_fold ts composed.get_duration hn hd0 n
  rw [h1, h2]
  refine congrArg Except.ok ?_
  have hmt : music_time_add ts st.current_mt
      (Beat.as_music_time ((n : ℚ) * total_beats ts composed.get_duration) ts)
      = Beat.as_music_time
          (total_beats ts st.current_mt
            + n * total_beats ts composed.get_duration) ts := by
    rw [music_time_add_eq ts _ _ hn]
    · rw [total_beats_as_music_time _ ts hn (by positivity)]
    · have := as_music_time_beat_nonneg
        ((n : ℚ) * total_beats ts composed.get_duration) ts hn
      have := hst.1
      linarith
  rw [hmt]

/-- The composition of a single one-beat `c`-note from the default state
(used by the C3 witness). -/
def exampleNoteComposition : Composition :=
  ⟨[⟨TrackId.Instrument Instrument.SineWave, Instrument.SineWave,
      [⟨⟨0, 0⟩, 1, ⟨50⟩, ⟨4, 3⟩⟩], []⟩], TimeSignature.common⟩

/-- Witness for C3: `[2][:c<1>]` from the initial state. -/
theorem c3_witness :
    compose_string TimeSignature.common
        [.Repeat 2 [.Simple (.T (.Music ⟨0, 1⟩ (.Note ⟨4, 3⟩)))]] (initCState none)
      = .ok { initCState none with
          tracks := (List.range 2).foldl
            (fun tks (i : ℕ) => add_composition tks
              (exampleNoteComposition.shift_by
                (Beat.as_music_time
                  (total_beats TimeSignature.common (initCState none).current_mt
                    + (i : ℚ) * total_beats TimeSignature.common
                        exampleNoteComposition.get_duration)
                  TimeSignature.common)))
            (initCState none).tracks,
          current_mt := Beat.as_music_time
            (total_beats TimeSignature.common (initCState none).current_mt
              + ((2 : ℕ) : ℚ) * total_beats TimeSignature.common
                  exampleNoteComposition.get_duration)
            TimeSignature.common } :=
  c3_repeat_replays_one_composition TimeSignature.common (initCState none) 2 _
    exampleNoteComposition
    (by norm_num [TimeSignature.common])
    (by constructor <;> norm_num [initCState, MusicTime.zero, TimeSignature.common])
    (by rw [compose_def,
          compose_string_cons_ok _ _ _ _ _ _ (compose_prim_simple _ _ _),
          compose_string_nil]
        dsimp only [initCState, Option.getD]
        rw [show total_beats TimeSignature.common ⟨0, 1⟩ = (1 : ℚ) from by
          simp [total_beats, TimeSignature.common]]
        refine congrArg Except.ok ?_
        decide)

/-! ### C2 — Split semantics -/

/-- Composing the single one-beat `c`-note from the default state with the
`SineWave` instrument (shared by the C2/C3 witnesses). -/
theorem compose_exampleNote :
    compose TimeSignature.common [.Simple (.T (.Music ⟨0, 1⟩ (.Note ⟨4, 3⟩)))]
        (some Instrument.SineWave)
      = .ok exampleNoteComposition := by
  rw [compose_def,
    compose_string_cons_ok _ _ _ _ _ _ (compose_prim_simple _ _ _),
    compose_string_nil]
  dsimp only [initCState, Option.getD]
  rw [show total_beats TimeSignature.common ⟨0, 1⟩ = (1 : ℚ) from by
    simp [total_beats, TimeSignature.common]]
  refine congrArg Except.ok ?_
  decide

theorem compose_branches_exampleNote :
    compose_branches TimeSignature.common [[.Simple (.T (.Music ⟨0, 1⟩ (.Note ⟨4, 3⟩)))]]
        Instrument.SineWave
      = .ok [exampleNoteComposition] := by
  rw [compose_branches, compose_exampleNote, compose_branches]

theorem music_time_add_zero_zero (ts : TimeSignature) (hn : 0 < ts.beatsPerMeasure) :
    music_time_add ts MusicTime.zero MusicTime.zero = MusicTime.zero := by
  rw [music_time_add_eq ts _ _ hn (by norm_num [MusicTime.zero])]
  rw [show total_beats ts MusicTime.zero + total_beats ts MusicTime.zero = 0 from by
    simp [total_beats, MusicTime.zero]]
  rw [as_music_time_of_lt 0 ts le_rfl (by exact_mod_cast hn)]
  rfl

theorem exampleNote_shift_zero :
    exampleNoteComposition.shift_by MusicTime.zero = exampleNoteComposition := by
  simp only [Composition.shift_by, Track.shift_by, exampleNoteComposition,
    List.map_cons, List.map_nil]
  rw [show music_time_add TimeSignature.common ⟨0, 0⟩ MusicTime.zero = (⟨0, 0⟩ : MusicTime)
    from music_time_add_zero_zero TimeSignature.common (by norm_num [TimeSignature.common])]

/-- **C2 (counterexample).** The claim says Split branches are composed
starting from the same cursor, instrument *and volume* as the enclosing
context.  In the code a branch is composed by the top-level `compose`,
whose initial state resets the volume to the default 50; only the
instrument is passed along.  After `::v=80` the current volume is 80, yet
the note inside the split is recorded with volume 50. -/
theorem c2_counterexample :
    compose_string TimeSignature.common
        [.Simple (.T (.Meta (.ChangeVolume ⟨80⟩))),
          .Split [[.Simple (.T (.Music ⟨0, 1⟩ (.Note ⟨4, 3⟩)))]]]
        (initCState none)
      = .ok { tracks := add_composition (fun _ => none) exampleNoteComposition,
              current_mt := music_time_add TimeSignature.common MusicTime.zero
                exampleNoteComposition.get_duration,
              current_instrument := Instrument.SineWave,
              current_volume := ⟨80⟩ } ∧
    add_composition (fun _ => none) exampleNoteComposition Instrument.SineWave
      = some ⟨TrackId.Instrument Instrument.SineWave, Instrument.SineWave,
          [⟨⟨0, 0⟩, 1, ⟨50⟩, ⟨4, 3⟩⟩], []⟩ ∧
    (⟨50⟩ : Volume) ≠ ⟨80⟩ := by
  have h1 : compose_prim TimeSignature.common
      (.Simple (.T (.Meta (.ChangeVolume ⟨80⟩)))) (initCState none)
      = .ok ((⟨fun _ => none, MusicTime.zero, Instrument.SineWave, ⟨80⟩⟩ : CState),
          MusicTime.zero) := by
    rw [compose_prim_simple]
    rfl
  have hsplit : compose_prim TimeSignature.common
      (.Split [[.Simple (.T (.Music ⟨0, 1⟩ (.Note ⟨4, 3⟩)))]])
      (⟨fun _ => none, MusicTime.zero, Instrument.SineWave, ⟨80⟩⟩ : CState)
      = .ok ((⟨add_composition (fun _ => none) exampleNoteComposition, MusicTime.zero,
          Instrument.SineWave, ⟨80⟩⟩ : CState), exampleNoteComposition.get_duration) := by
    rw [compose_prim_split]
    dsimp only
    rw [compose_branches_exampleNote]
    simp only [split_combine, List.map_cons, List.map_nil, List.all_cons, List.all_nil,
      List.foldl_cons, List.foldl_nil]
    rw [exampleNote_shift_zero]
    simp
  refine ⟨?_, ?_, ?_⟩
  · rw [compose_string_cons_ok _ _ _ _ _ _ h1]
    dsimp only
    rw [music_time_add_zero_zero TimeSignature.common (by norm_num [TimeSignature.common])]
    rw [compose_string_cons_ok _ _ _ _ _ _ hsplit, compose_string_nil]
  · rfl
  · intro h
    cases h

/-- **C2 (amended).** When `compose` reaches a `Split`, every branch is
composed independently by the *top-level* `compose` from a fresh initial
state — cursor zero, the enclosing current instrument, and the **default
volume 50** (the enclosing volume is not propagated) — and each resulting
composition is shifted by the enclosing cursor.  If all shifted branch
durations are equal, the `Split` succeeds, folds the shifted compositions
into the track map, and reports that common duration for the cursor
advance; if any duration differs from the first, it fails with
`MismatchedLengths` naming the branch durations. -/
theorem c2_amended (ts : TimeSignature) (branches : List MusicString) (st : CState)
    (comps : List Composition) (durs : List MusicTime)
    (hb : compose_branches ts branches st.current_instrument = .ok comps)
    (hdurs : durs = comps.map fun c => (c.shift_by st.current_mt).get_duration) :
    initCState (some st.current_instrument)
        = ⟨fun _ => none, MusicTime.zero, st.current_instrument, ⟨50⟩⟩
    ∧ (∀ b ∈ branches, ∃ c, compose ts b (some st.current_instrument) = .ok c)
    ∧ ((∀ x ∈ durs, x = durs.headD MusicTime.zero) →
        compose_prim ts (.Split branches) st
          = .ok ({ st with
                tracks := comps.foldl
                  (fun tks c => add_composition tks (c.shift_by st.current_mt))
                  st.tracks },
              durs.headD MusicTime.zero))
    ∧ ((¬ ∀ x ∈ durs, x = durs.headD MusicTime.zero) →
        compose_prim ts (.Split branches) st = .error (.MismatchedLengths durs)) := by
  subst hdurs
  refine ⟨rfl, ?_, ?_, ?_⟩
  · induction branches generalizing comps with
    | nil => intro b hbm; cases hbm
    | cons b bs ih =>
      rw [compose_branches] at hb
      split at hb
      · cases hb
      · rename_i c heq
        split at hb
        · cases hb
        · rename_i cs heqs
          intro b' hbm
          rcases List.mem_cons.mp hbm with h | h
          · exact ⟨c, h ▸ heq⟩
          · exact ih cs heqs b' h
  · intro hall
    rw [compose_prim_split, hb]
    dsimp only
    simp only [split_combine]
    rw [List.foldl_map]
    cases comps with
    | nil => rfl
    | cons c cs =>
      simp only [List.map_cons, List.headD_cons] at hall ⊢
      split
      · rename_i dur heq
        split at heq
        · injection heq with h
          subst h
          rfl
        · cases heq
      · rename_i heq
        split at heq
        · cases heq
        · rename_i hfalse
          exfalso
          apply hfalse
          simp only [List.all_cons, Bool.and_eq_true, decide_eq_true_eq, List.all_eq_true]
          refine ⟨trivial, fun p hp => ?_⟩
          rcases List.mem_map.mp hp with ⟨c2, hc2, rfl⟩
          exact hall _ (List.mem_cons_of_mem _ (List.mem_map_of_mem _ hc2))
  · intro hne
    rw [compose_prim_split, hb]
    dsimp only
    simp only [split_combine]
    cases comps with
    | nil =>
      exact absurd (fun x hx => absurd hx (List.not_mem_nil x)) hne
    | cons c cs =>
      simp only [List.map_cons, List.headD_cons] at hne ⊢
      split
      · rename_i dur heq
        split at heq
        · rename_i htrue
          exfalso
          apply hne
          simp only [List.all_cons, Bool.and_eq_true, decide_eq_true_eq,
            List.all_eq_true] at htrue
          intro x hx
          rcases List.mem_cons.mp hx with h | h
          · exact h
          · rcases List.mem_map.mp h with ⟨c2, hc2, rfl⟩
            exact htrue.2 _ (List.mem_map_of_mem _ hc2)
        · cases heq
      · simp only [List.map_cons, List.map_map]
        rfl

/-- Concrete run of the amended C2 split semantics: one branch holding the
single note `:c<1>` under the default instrument, with the enclosing state
at volume 80. -/
theorem c2_amended_witness :
    compose_branches TimeSignature.common
        [[.Simple (.T (.Music ⟨0, 1⟩ (.Note ⟨4, 3⟩)))]] Instrument.SineWave
      = .ok [exampleNoteComposition]
    ∧ (initCState (some Instrument.SineWave)
        = ⟨fun _ => none, MusicTime.zero, Instrument.SineWave, ⟨50⟩⟩
      ∧ (∀ b ∈ [[MusicPrimitive.Simple (.T (.Music ⟨0, 1⟩ (.Note ⟨4, 3⟩)))]],
          ∃ c, compose TimeSignature.common b (some Instrument.SineWave) = .ok c)
      ∧ ((∀ x ∈ [exampleNoteComposition].map
              fun c => (c.shift_by MusicTime.zero).get_duration,
            x = ([exampleNoteComposition].map
                fun c => (c.shift_by MusicTime.zero).get_duration).headD MusicTime.zero) →
          compose_prim TimeSignature.common
              (.Split [[.Simple (.T (.Music ⟨0, 1⟩ (.Note ⟨4, 3⟩)))]])
              (⟨fun _ => none, MusicTime.zero, Instrument.SineWave, ⟨80⟩⟩ : CState)
            = .ok ({ (⟨fun _ => none, MusicTime.zero, Instrument.SineWave, ⟨80⟩⟩ : CState) with
                  tracks := [exampleNoteComposition].foldl
                    (fun tks c => add_composition tks (c.shift_by MusicTime.zero))
                    (fun _ => none) },
                ([exampleNoteComposition].map
                    fun c => (c.shift_by MusicTime.zero).get_duration).headD MusicTime.zero))
      ∧ ((¬ ∀ x ∈ [exampleNoteComposition].map
              fun c => (c.shift_by MusicTime.zero).get_duration,
            x = ([exampleNoteComposition].map
                fun c => (c.shift_by MusicTime.zero).get_duration).headD MusicTime.zero) →
          compose_prim TimeSignature.common
              (.Split [[.Simple (.T (.Music ⟨0, 1⟩ (.Note ⟨4, 3⟩)))]])
              (⟨fun _ => none, MusicTime.zero, Instrument.SineWave, ⟨80⟩⟩ : CState)
            = .error (.MismatchedLengths
                ([exampleNoteComposition].map
                  fun c => (c.shift_by MusicTime.zero).get_duration)))) :=
  ⟨compose_branches_exampleNote,
    c2_amended TimeSignature.common
      [[.Simple (.T (.Music ⟨0, 1⟩ (.Note ⟨4, 3⟩)))]]
      (⟨fun _ => none, MusicTime.zero, Instrument.SineWave, ⟨80⟩⟩ : CState)
      [exampleNoteComposition] _ compose_branches_exampleNote rfl⟩

/-! ### C5 — duration of simple-only strings -/

/-- The duration by which a terminal advances the cursor: `Music` carries
its duration, meta controls advance by `MusicTime::zero()`. -/
def Terminal.duration : Terminal → MusicTime
  | .Music d _ => d
  | .Meta _ => MusicTime.zero

/-- Whether a terminal records an event (note or rest) into the track map. -/
def Terminal.adds_event : Terminal → Bool
  | .Music _ _ => true
  | .Meta _ => false

theorem total_beats_zero (ts : TimeSignature) : total_beats ts MusicTime.zero = 0 := by
  simp [total_beats, MusicTime.zero]

theorem min_option_none_left (b : Option MusicTime) : min_option none b = b := by
  cases b <;> rfl

theorem max_option_none_left (b : Option MusicTime) : max_option none b = b := by
  cases b <;> rfl

theorem min_option_comm (a b : Option MusicTime) : min_option a b = min_option b a := by
  cases a <;> cases b <;> simp [min_option, min_comm]

theorem max_option_comm (a b : Option MusicTime) : max_option a b = max_option b a := by
  cases a <;> cases b <;> simp [max_option, max_comm]

theorem min_option_assoc (a b c : Option MusicTime) :
    min_option (min_option a b) c = min_option a (min_option b c) := by
  cases a <;> cases b <;> cases c <;> simp [min_option, min_assoc]

theorem max_option_assoc (a b c : Option MusicTime) :
    max_option (max_option a b) c = max_option a (max_option b c) := by
  cases a <;> cases b <;> cases c <;> simp [max_option, max_assoc]

theorem list_min_cons (x : MusicTime) (xs : List MusicTime) :
    list_min (x :: xs) = min_option (some x) (list_min xs) := by
  cases h : list_min xs <;> simp [list_min, h, min_option]

theorem list_max_cons (x : MusicTime) (xs : List MusicTime) :
    list_max (x :: xs) = max_option (some x) (list_max xs) := by
  cases h : list_max xs <;> simp [list_max, h, max_option]

theorem list_min_append (xs ys : List MusicTime) :
    list_min (xs ++ ys) = min_option (list_min xs) (list_min ys) := by
  induction xs with
  | nil => rw [List.nil_append]; exact (min_option_none_left _).symm
  | cons x xs ih => rw [List.cons_append, list_min_cons, ih, list_min_cons, min_option_assoc]

theorem list_max_append (xs ys : List MusicTime) :
    list_max (xs ++ ys) = max_option (list_max xs) (list_max ys) := by
  induction xs with
  | nil => rw [List.nil_append]; exact (max_option_none_left _).symm
  | cons x xs ih => rw [List.cons_append, list_max_cons, ih, list_max_cons, max_option_assoc]

theorem list_min_filterMap_cons (g : Instrument → Option MusicTime) (j : Instrument)
    (l : List Instrument) :
    list_min ((j :: l).filterMap g) = min_option (g j) (list_min (l.filterMap g)) := by
  cases h : g j with
  | none => rw [List.filterMap_cons_none h, min_option_none_left]
  | some x => rw [List.filterMap_cons_some h, list_min_cons]

theorem list_max_filterMap_cons (g : Instrument → Option MusicTime) (j : Instrument)
    (l : List Instrument) :
    list_max ((j :: l).filterMap g) = max_option (g j) (list_max (l.filterMap g)) := by
  cases h : g j with
  | none => rw [List.filterMap_cons_none h, max_option_none_left]
  | some x => rw [List.filterMap_cons_some h, list_max_cons]

theorem instrumentList_nodup : instrumentList.Nodup := by decide

theorem list_min_filterMap_update (l : List Instrument) (hnd : l.Nodup)
    (g : Instrument → Option MusicTime) (i : Instrument) (v : MusicTime) (hi : i ∈ l) :
    list_min (l.filterMap fun j => if j = i then min_option (g j) (some v) else g j)
      = min_option (list_min (l.filterMap g)) (some v) := by
  induction l with
  | nil => cases hi
  | cons j l ih =>
    rw [list_min_filterMap_cons, list_min_filterMap_cons]
    by_cases hj : j = i
    · subst hj
      have hmem : j ∉ l := (List.nodup_cons.mp hnd).1
      have hcong : (l.filterMap fun j2 => if j2 = j then min_option (g j2) (some v) else g j2)
          = l.filterMap g :=
        List.filterMap_congr fun a ha => if_neg fun (h : a = j) => hmem (h ▸ ha)
      rw [if_pos rfl, hcong, min_option_assoc, min_option_comm (some v), ← min_option_assoc]
    · have hmem : i ∈ l := by
        rcases List.mem_cons.mp hi with h | h
        · exact absurd h.symm hj
        · exact h
      rw [if_neg hj, ih (List.nodup_cons.mp hnd).2 hmem, ← min_option_assoc]

theorem list_max_filterMap_update (l : List Instrument) (hnd : l.Nodup)
    (g : Instrument → Option MusicTime) (i : Instrument) (v : MusicTime) (hi : i ∈ l) :
    list_max (l.filterMap fun j => if j = i then max_option (g j) (some v) else g j)
      = max_option (list_max (l.filterMap g)) (some v) := by
  induction l with
  | nil => cases hi
  | cons j l ih =>
    rw [list_max_filterMap_cons, list_max_filterMap_cons]
    by_cases hj : j = i
    · subst hj
      have hmem : j ∉ l := (List.nodup_cons.mp hnd).1
      have hcong : (l.filterMap fun j2 => if j2 = j then max_option (g j2) (some v) else g j2)
          = l.filterMap g :=
        List.filterMap_congr fun a ha => if_neg fun (h : a = j) => hmem (h ▸ ha)
      rw [if_pos rfl, hcong, max_option_assoc, max_option_comm (some v), ← max_option_assoc]
    · have hmem : i ∈ l := by
        rcases List.mem_cons.mp hi with h | h
        · exact absurd h.symm hj
        · exact h
      rw [if_neg hj, ih (List.nodup_cons.mp hnd).2 hmem, ← max_option_assoc]

theorem get_start_append_event (t : Track) (e : Event) :
    Track.get_start { t with events := t.events ++ [e] }
      = min_option t.get_start (some e.start) := by
  simp only [Track.get_start, List.map_append, List.map_cons, List.map_nil]
  rw [list_min_append]
  rw [show list_min [e.start] = some e.start from rfl]
  rw [min_option_assoc, min_option_comm (some e.start), ← min_option_assoc]

theorem get_start_append_rest (t : Track) (e : Event) :
    Track.get_start { t with rests := t.rests ++ [e] }
      = min_option t.get_start (some e.start) := by
  simp only [Track.get_start, List.map_append, List.map_cons, List.map_nil]
  rw [list_min_append]
  rw [show list_min [e.start] = some e.start from rfl]
  rw [← min_option_assoc]

theorem get_end_append_event (t : Track) (e : Event) (ts : TimeSignature) :
    Track.get_end { t with events := t.events ++ [e] } ts
      = max_option (t.get_end ts) (some (e.get_end ts)) := by
  simp only [Track.get_end, List.map_append, List.map_cons, List.map_nil]
  rw [list_max_append]
  rw [show list_max [e.get_end ts] = some (e.get_end ts) from rfl]
  rw [max_option_assoc, max_option_comm (some (e.get_end ts)), ← max_option_assoc]

theorem get_end_append_rest (t : Track) (e : Event) (ts : TimeSignature) :
    Track.get_end { t with rests := t.rests ++ [e] } ts
      = max_option (t.get_end ts) (some (e.get_end ts)) := by
  simp only [Track.get_end, List.map_append, List.map_cons, List.map_nil]
  rw [list_max_append]
  rw [show list_max [e.get_end ts] = some (e.get_end ts) from rfl]
  rw [← max_option_assoc]

/-- The earliest event or rest start anywhere in the track map
(the `start` leg of `Composition::get_duration` applied to the collected
tracks). -/
def map_start (m : TrackMap) : Option MusicTime :=
  list_min ((tracksToList m).filterMap Track.get_start)

/-- The latest event or rest end anywhere in the track map. -/
def map_end (ts : TimeSignature) (m : TrackMap) : Option MusicTime :=
  list_max ((tracksToList m).filterMap (Track.get_end · ts))

theorem map_start_add_event (m : TrackMap) (e : Event) (i : Instrument) :
    map_start (add_event m e i) = min_option (map_start m) (some e.start) := by
  simp only [map_start, tracksToList, List.filterMap_filterMap]
  have hfun : (fun j => (add_event m e i j).bind Track.get_start)
      = fun j => if j = i then min_option ((m j).bind Track.get_start) (some e.start)
          else (m j).bind Track.get_start := by
    funext j
    by_cases hj : j = i
    · subst hj
      simp only [add_event, if_pos rfl]
      cases hm : m j
      · rfl
      · rename_i t
        simp only [Option.bind]
        exact get_start_append_event t e
    · simp only [add_event, if_neg hj]
  rw [hfun]
  exact list_min_filterMap_update instrumentList instrumentList_nodup _ i e.start
    (mem_instrumentList i)

theorem map_start_add_rest_event (m : TrackMap) (e : Event) (i : Instrument) :
    map_start (add_rest_event m e i) = min_option (map_start m) (some e.start) := by
  simp only [map_start, tracksToList, List.filterMap_filterMap]
  have hfun : (fun j => (add_rest_event m e i j).bind Track.get_start)
      = fun j => if j = i then min_option ((m j).bind Track.get_start) (some e.start)
          else (m j).bind Track.get_start := by
    funext j
    by_cases hj : j = i
    · subst hj
      simp only [add_rest_event, if_pos rfl]
      cases hm : m j
      · rfl
      · rename_i t
        simp only [Option.bind]
        exact get_start_append_rest t e
    · simp only [add_rest_event, if_neg hj]
  rw [hfun]
  exact list_min_filterMap_update instrumentList instrumentList_nodup _ i e.start
    (mem_instrumentList i)

theorem map_end_add_event (m : TrackMap) (e : Event) (i : Instrument) (ts : TimeSignature) :
    map_end ts (add_event m e i) = max_option (map_end ts m) (some (e.get_end ts)) := by
  simp only [map_end, tracksToList, List.filterMap_filterMap]
  have hfun : (fun j => (add_event m e i j).bind (Track.get_end · ts))
      = fun j => if j = i then max_option ((m j).bind (Track.get_end · ts))
            (some (e.get_end ts))
          else (m j).bind (Track.get_end · ts) := by
    funext j
    by_cases hj : j = i
    · subst hj
      simp only [add_event, if_pos rfl]
      cases hm : m j
      · rfl
      · rename_i t
        simp only [Option.bind]
        exact get_end_append_event t e ts
    · simp only [add_event, if_neg hj]
  rw [hfun]
  exact list_max_filterMap_update instrumentList instrumentList_nodup _ i (e.get_end ts)
    (mem_instrumentList i)

theorem map_end_add_rest_event (m : TrackMap) (e : Event) (i : Instrument)
    (ts : TimeSignature) :
    map_end ts (add_rest_event m e i) = max_option (map_end ts m) (some (e.get_end ts)) := by
  simp only [map_end, tracksToList, List.filterMap_filterMap]
  have hfun : (fun j => (add_rest_event m e i j).bind (Track.get_end · ts))
      = fun j => if j = i then max_option ((m j).bind (Track.get_end · ts))
            (some (e.get_end ts))
          else (m j).bind (Track.get_end · ts) := by
    funext j
    by_cases hj : j = i
    · subst hj
      simp only [add_rest_event, if_pos rfl]
      cases hm : m j
      · rfl
      · rename_i t
        simp only [Option.bind]
        exact get_end_append_rest t e ts
    · simp only [add_rest_event, if_neg hj]
  rw [hfun]
  exact list_max_filterMap_update instrumentList instrumentList_nodup _ i (e.get_end ts)
    (mem_instrumentList i)

theorem normalized_zero (ts : TimeSignature) (hn : 0 < ts.beatsPerMeasure) :
    normalized ts MusicTime.zero := by
  constructor
  · simp [MusicTime.zero]
  · simp only [MusicTime.zero]
    exact_mod_cast hn

theorem music_time_add_zero_right (ts : TimeSignature) (x : MusicTime)
    (hn : 0 < ts.beatsPerMeasure) (hx : normalized ts x) :
    music_time_add ts x MusicTime.zero = x := by
  rw [music_time_add_eq ts _ _ hn (by simpa [MusicTime.zero] using hx.1)]
  rw [show total_beats ts x + total_beats ts MusicTime.zero = total_beats ts x from by
    rw [total_beats_zero]; ring]
  exact as_music_time_total_beats ts x hn hx

theorem music_time_sub_zero_right (ts : TimeSignature) (x : MusicTime)
    (hn : 0 < ts.beatsPerMeasure) (hx : normalized ts x) (hm : x.measure < u32Size) :
    music_time_sub ts x MusicTime.zero = x := by
  rw [music_time_sub_eq ts x _ hn hx (normalized_zero ts hn)
    ((music_time_le_iff ts _ _ hn (normalized_zero ts hn) hx).mpr
      (by rw [total_beats_zero]; exact total_beats_nonneg ts x hx.1)) hm]
  rw [show total_beats ts x - total_beats ts MusicTime.zero = total_beats ts x from by
    rw [total_beats_zero]; ring]
  exact as_music_time_total_beats ts x hn hx

/-- Folding `music_time_add` over a list of beat-nonnegative durations from a
normalized starting point yields a normalized value whose total beats are the
starting total beats plus the sum of the durations' total beats. -/
theorem foldl_music_time_add_spec (ts : TimeSignature) (hn : 0 < ts.beatsPerMeasure)
    (l : List MusicTime) (hl : ∀ d ∈ l, 0 ≤ d.beat) (z : MusicTime)
    (hz : normalized ts z) :
    normalized ts (l.foldl (music_time_add ts) z)
      ∧ total_beats ts (l.foldl (music_time_add ts) z)
          = total_beats ts z + (l.map (total_beats ts)).sum := by
  induction l generalizing z with
  | nil => simpa using hz
  | cons d l ih =>
    simp only [List.foldl_cons, List.map_cons, List.sum_cons]
    obtain ⟨h1, h2⟩ := ih (fun x hx => hl x (List.mem_cons_of_mem _ hx))
      (music_time_add ts z d) (music_time_add_normalized ts z d hn)
    refine ⟨h1, ?_⟩
    rw [h2, total_beats_add ts z d hn hz.1 (hl d (List.mem_cons_self _ _))]
    ring

/-- `Composition::get_duration` of the composition that `compose` builds from
a final track map, expressed through the map aggregates. -/
theorem get_duration_eq_map (m : TrackMap) (ts : TimeSignature) :
    Composition.get_duration ⟨tracksToList m, ts⟩
      = match map_start m, map_end ts m with
        | some s, some e => music_time_sub ts e s
        | _, _ => MusicTime.zero := rfl

/-- Main invariant of `compose` on strings of `Simple` terminals: the run
always succeeds, the cursor advances by the total beats of the terminal
durations, the earliest recorded start stays fixed (it is the cursor at the
first event-producing terminal), and the latest recorded end is always the
current cursor. -/
theorem compose_simple_string_spec (ts : TimeSignature) (hn : 0 < ts.beatsPerMeasure) :
    ∀ (terms : List Terminal) (st : CState) (s0 : Option MusicTime),
      (∀ t ∈ terms, 0 ≤ (Terminal.duration t).beat) →
      normalized ts st.current_mt →
      map_start st.tracks = s0 →
      map_end ts st.tracks = s0.map (fun _ => st.current_mt) →
      (∀ x, s0 = some x → normalized ts x ∧ 0 ≤ total_beats ts x
          ∧ total_beats ts x ≤ total_beats ts st.current_mt) →
      ∃ st2, compose_string ts (terms.map fun t => .Simple (.T t)) st = .ok st2
        ∧ normalized ts st2.current_mt
        ∧ total_beats ts st2.current_mt
            = total_beats ts st.current_mt
              + ((terms.map Terminal.duration).map (total_beats ts)).sum
        ∧ map_start st2.tracks
            = cond (terms.any Terminal.adds_event) (some (s0.getD st.current_mt)) s0
        ∧ map_end ts st2.tracks
            = (cond (terms.any Terminal.adds_event) (some (s0.getD st.current_mt)) s0).map
                (fun _ => st2.current_mt)
        ∧ (terms.any Terminal.adds_event = false → st2.current_mt = st.current_mt)
        ∧ (∀ x, cond (terms.any Terminal.adds_event) (some (s0.getD st.current_mt)) s0
              = some x →
            normalized ts x ∧ 0 ≤ total_beats ts x
              ∧ total_beats ts x ≤ total_beats ts st2.current_mt) := by
  intro terms
  induction terms with
  | nil =>
    intro st s0 hbeats hcur hS hE hs0
    refine ⟨st, compose_string_nil ts st, hcur, by simp, ?_, ?_, fun _ => rfl, ?_⟩
    · simpa using hS
    · simpa using hE
    · simpa using hs0
  | cons t rest ih =>
    intro st s0 hbeats hcur hS hE hs0
    cases t with
    | Meta c =>
      cases c with
      | ChangeInstrument i2 =>
        obtain ⟨st2, h1, h2, h3, h4, h5, h6, h7⟩ :=
          ih { st with current_instrument := i2 } s0
            (fun x hx => hbeats x (List.mem_cons_of_mem _ hx)) hcur hS hE hs0
        refine ⟨st2, ?_, h2, ?_, ?_, ?_, ?_, ?_⟩
        · simp only [List.map_cons]
          rw [compose_string_cons_ok _ _ _ _ _ _ (compose_prim_simple ts _ st)]
          dsimp only
          rw [music_time_add_zero_right ts _ hn hcur]
          exact h1
        · rw [List.map_cons, List.map_cons, List.sum_cons]
          simp only [Terminal.duration, total_beats_zero, zero_add]
          exact h3
        · simp only [List.any_cons, Terminal.adds_event, Bool.false_or]
          exact h4
        · simp only [List.any_cons, Terminal.adds_event, Bool.false_or]
          exact h5
        · intro h
          simp only [List.any_cons, Terminal.adds_event, Bool.false_or] at h
          exact h6 h
        · simp only [List.any_cons, Terminal.adds_event, Bool.false_or]
          exact h7
      | ChangeVolume v2 =>
        obtain ⟨st2, h1, h2, h3, h4, h5, h6, h7⟩ :=
          ih { st with current_volume := v2 } s0
            (fun x hx => hbeats x (List.mem_cons_of_mem _ hx)) hcur hS hE hs0
        refine ⟨st2, ?_, h2, ?_, ?_, ?_, ?_, ?_⟩
        · simp only [List.map_cons]
          rw [compose_string_cons_ok _ _ _ _ _ _ (compose_prim_simple ts _ st)]
          dsimp only
          rw [music_time_add_zero_right ts _ hn hcur]
          exact h1
        · rw [List.map_cons, List.map_cons, List.sum_cons]
          simp only [Terminal.duration, total_beats_zero, zero_add]
          exact h3
        · simp only [List.any_cons, Terminal.adds_event, Bool.false_or]
          exact h4
        · simp only [List.any_cons, Terminal.adds_event, Bool.false_or]
          exact h5
        · intro h
          simp only [List.any_cons, Terminal.adds_event, Bool.false_or] at h
          exact h6 h
        · simp only [List.any_cons, Terminal.adds_event, Bool.false_or]
          exact h7
    | Music dmt note =>
      have hdb : 0 ≤ dmt.beat := hbeats _ (List.mem_cons_self _ _)
      have hBd : 0 ≤ total_beats ts dmt := total_beats_nonneg ts dmt hdb
      have hcur2 : normalized ts (music_time_add ts st.current_mt dmt) :=
        music_time_add_normalized ts _ _ hn
      have hBcur2 : total_beats ts (music_time_add ts st.current_mt dmt)
          = total_beats ts st.current_mt + total_beats ts dmt :=
        total_beats_add ts _ _ hn hcur.1 hdb
      have hcurB0 : 0 ≤ total_beats ts st.current_mt := total_beats_nonneg ts _ hcur.1
      have hs02 : ∀ x, (some (s0.getD st.current_mt) : Option MusicTime) = some x →
          normalized ts x ∧ 0 ≤ total_beats ts x
            ∧ total_beats ts x ≤ total_beats ts (music_time_add ts st.current_mt dmt) := by
        intro x hx
        rw [Option.some.injEq] at hx
        subst hx
        cases s0 with
        | none =>
          simp only [Option.getD_none]
          exact ⟨hcur, hcurB0, by rw [hBcur2]; linarith⟩
        | some s0v =>
          simp only [Option.getD_some]
          obtain ⟨ha, hb, hc⟩ := hs0 s0v rfl
          exact ⟨ha, hb, by rw [hBcur2]; linarith⟩
      cases note with
      | Note p =>
        have hend : Event.get_end ⟨st.current_mt, total_beats ts dmt, st.current_volume, p⟩ ts
            = music_time_add ts st.current_mt dmt := by
          simp only [Event.get_end]
          rw [music_time_add_eq ts _ _ hn
              (by have h0 := as_music_time_beat_nonneg (total_beats ts dmt) ts hn
                  have h1 := hcur.1
                  linarith),
            music_time_add_eq ts _ _ hn (by have h1 := hcur.1; linarith),
            total_beats_as_music_time _ _ hn hBd]
        have hS2 : map_start (add_event st.tracks
              ⟨st.current_mt, total_beats ts dmt, st.current_volume, p⟩ st.current_instrument)
            = some (s0.getD st.current_mt) := by
          rw [map_start_add_event, hS]
          cases s0 with
          | none => rfl
          | some s0v =>
            have hle : s0v ≤ st.current_mt :=
              (music_time_le_iff ts _ _ hn (hs0 s0v rfl).1 hcur).mpr (hs0 s0v rfl).2.2
            simp [min_option, Option.getD, min_eq_left hle]
        have hE2 : map_end ts (add_event st.tracks
              ⟨st.current_mt, total_beats ts dmt, st.current_volume, p⟩ st.current_instrument)
            = some (music_time_add ts st.current_mt dmt) := by
          rw [map_end_add_event, hE, hend]
          cases s0 with
          | none => rfl
          | some s0v =>
            have hle : st.current_mt ≤ music_time_add ts st.current_mt dmt :=
              (music_time_le_iff ts _ _ hn hcur hcur2).mpr (by rw [hBcur2]; linarith)
            simp [max_option, Option.map, max_eq_right hle]
        obtain ⟨st2, h1, h2, h3, h4, h5, h6, h7⟩ :=
          ih { st with
                tracks := add_event st.tracks
                  ⟨st.current_mt, total_beats ts dmt, st.current_volume, p⟩
                  st.current_instrument,
                current_mt := music_time_add ts st.current_mt dmt }
            (some (s0.getD st.current_mt))
            (fun x hx => hbeats x (List.mem_cons_of_mem _ hx))
            hcur2 hS2 hE2 hs02
        dsimp only at h3 h4 h5 h7
        refine ⟨st2, ?_, h2, ?_, ?_, ?_, ?_, ?_⟩
        · simp only [List.map_cons]
          rw [compose_string_cons_ok _ _ _ _ _ _ (compose_prim_simple ts _ st)]
          exact h1
        · rw [List.map_cons, List.map_cons, List.sum_cons]
          simp only [Terminal.duration]
          rw [h3, hBcur2]
          ring
        · simp only [List.any_cons, Terminal.adds_event, Bool.true_or, cond_true]
          rw [h4]
          cases rest.any Terminal.adds_event <;> simp
        · simp only [List.any_cons, Terminal.adds_event, Bool.true_or, cond_true]
          rw [h5]
          cases rest.any Terminal.adds_event <;> simp
        · intro h
          simp only [List.any_cons, Terminal.adds_event, Bool.true_or] at h
          exact Bool.noConfusion h
        · intro x hx
          simp only [List.any_cons, Terminal.adds_event, Bool.true_or, cond_true] at hx
          refine h7 x ?_
          cases rest.any Terminal.adds_event <;> simpa using hx
      | Rest =>
        have hend : Event.get_end ⟨st.current_mt, total_beats ts dmt, ⟨0⟩, ⟨0, 0⟩⟩ ts
            = music_time_add ts st.current_mt dmt := by
          simp only [Event.get_end]
          rw [music_time_add_eq ts _ _ hn
              (by have h0 := as_music_time_beat_nonneg (total_beats ts dmt) ts hn
                  have h1 := hcur.1
                  linarith),
            music_time_add_eq ts _ _ hn (by have h1 := hcur.1; linarith),
            total_beats_as_music_time _ _ hn hBd]
        have hS2 : map_start (add_rest_event st.tracks
              ⟨st.current_mt, total_beats ts dmt, ⟨0⟩, ⟨0, 0⟩⟩ st.current_instrument)
            = some (s0.getD st.current_mt) := by
          rw [map_start_add_rest_event, hS]
          cases s0 with
          | none => rfl
          | some s0v =>
            have hle : s0v ≤ st.current_mt :=
              (music_time_le_iff ts _ _ hn (hs0 s0v rfl).1 hcur).mpr (hs0 s0v rfl).2.2
            simp [min_option, Option.getD, min_eq_left hle]
        have hE2 : map_end ts (add_rest_event st.tracks
              ⟨st.current_mt, total_beats ts dmt, ⟨0⟩, ⟨0, 0⟩⟩ st.current_instrument)
            = some (music_time_add ts st.current_mt dmt) := by
          rw [map_end_add_rest_event, hE, hend]
          cases s0 with
          | none => rfl
          | some s0v =>
            have hle : st.current_mt ≤ music_time_add ts st.current_mt dmt :=
              (music_time_le_iff ts _ _ hn hcur hcur2).mpr (by rw [hBcur2]; linarith)
            simp [max_option, Option.map, max_eq_right hle]
        obtain ⟨st2, h1, h2, h3, h4, h5, h6, h7⟩ :=
          ih { st with
                tracks := add_rest_event st.tracks
                  ⟨st.current_mt, total_beats ts dmt, ⟨0⟩, ⟨0, 0⟩⟩
                  st.current_instrument,
                current_mt := music_time_add ts st.current_mt dmt }
            (some (s0.getD st.current_mt))
            (fun x hx => hbeats x (List.mem_cons_of_mem _ hx))
            hcur2 hS2 hE2 hs02
        dsimp only at h3 h4 h5 h7
        refine ⟨st2, ?_, h2, ?_, ?_, ?_, ?_, ?_⟩
        · simp only [List.map_cons]
          rw [compose_string_cons_ok _ _ _ _ _ _ (compose_prim_simple ts _ st)]
          exact h1
        · rw [List.map_cons, List.map_cons, List.sum_cons]
          simp only [Terminal.duration]
          rw [h3, hBcur2]
          ring
        · simp only [List.any_cons, Terminal.adds_event, Bool.true_or, cond_true]
          rw [h4]
          cases rest.any Terminal.adds_event <;> simp
        · simp only [List.any_cons, Terminal.adds_event, Bool.true_or, cond_true]
          rw [h5]
          cases rest.any Terminal.adds_event <;> simp
        · intro h
          simp only [List.any_cons, Terminal.adds_event, Bool.true_or] at h
          exact Bool.noConfusion h
        · intro x hx
          simp only [List.any_cons, Terminal.adds_event, Bool.true_or, cond_true] at hx
          refine h7 x ?_
          cases rest.any Terminal.adds_event <;> simpa using hx

/-- **C5.** For every `MusicString` consisting solely of `Simple` terminals
(no `Split`, `Repeat` or nonterminal), `compose` succeeds, and the resulting
composition's `get_duration()` is exactly the sum (under `MusicTime`
addition for the chosen time signature) of the terminals' durations, with
meta-control terminals contributing zero.  The side conditions mirror the
Rust representation: beats are `Ratio<u32>` (nonnegative) and the total
duration must fit in the `u32` measure counter. -/
theorem c5_simple_only_duration (ts : TimeSignature) (terms : List Terminal)
    (inst : Option Instrument) (hn : 0 < ts.beatsPerMeasure)
    (hbeats : ∀ t ∈ terms, 0 ≤ (Terminal.duration t).beat)
    (hfit : ((terms.map Terminal.duration).map (total_beats ts)).sum
        < (ts.beatsPerMeasure : ℚ) * (u32Size : ℚ)) :
    ∃ comp, compose ts (terms.map fun t => .Simple (.T t)) inst = .ok comp
      ∧ comp.get_duration
          = (terms.map Terminal.duration).foldl (music_time_add ts) MusicTime.zero := by
  have hz : normalized ts MusicTime.zero := normalized_zero ts hn
  obtain ⟨st2, h1, h2, h3, h4, h5, h6, h7⟩ :=
    compose_simple_string_spec ts hn terms (initCState inst) none hbeats hz rfl rfl
      (fun x hx => Option.noConfusion hx)
  have hfold := foldl_music_time_add_spec ts hn (terms.map Terminal.duration)
    (by intro d hd
        rcases List.mem_map.mp hd with ⟨t, ht, rfl⟩
        exact hbeats t ht)
    MusicTime.zero hz
  have hcur0 : total_beats ts (initCState inst).current_mt = 0 := total_beats_zero ts
  rw [hcur0, zero_add] at h3
  rw [total_beats_zero, zero_add] at hfold
  refine ⟨⟨tracksToList st2.tracks, ts⟩, ?_, ?_⟩
  · rw [compose_def, h1]
  · rw [get_duration_eq_map, h4, h5]
    cases hany : terms.any Terminal.adds_event with
    | false =>
      have hsum0 : ((terms.map Terminal.duration).map (total_beats ts)).sum = 0 := by
        have h8 := h6 hany
        rw [h8, hcur0] at h3
        linarith
      rw [hsum0] at hfold
      have hfz : (terms.map Terminal.duration).foldl (music_time_add ts) MusicTime.zero
          = MusicTime.zero := by
        have h8 := as_music_time_total_beats ts _ hn hfold.1
        rw [hfold.2] at h8
        rw [← h8, as_music_time_of_lt 0 ts le_rfl (by exact_mod_cast hn)]
        rfl
      rw [hfz]
      rfl
    | true =>
      have hBeq : total_beats ts st2.current_mt
          = total_beats ts ((terms.map Terminal.duration).foldl
              (music_time_add ts) MusicTime.zero) := by
        rw [h3, hfold.2]
      have hmeas : st2.current_mt.measure < u32Size := by
        have hq1 : (st2.current_mt.measure : ℚ) * (ts.beatsPerMeasure : ℚ)
            ≤ total_beats ts st2.current_mt := by
          simp only [total_beats]
          linarith [h2.1]
        have hq2 : total_beats ts st2.current_mt
            < (ts.beatsPerMeasure : ℚ) * (u32Size : ℚ) := by
          rw [h3]
          exact hfit
        have hnq : (0 : ℚ) < (ts.beatsPerMeasure : ℚ) := by exact_mod_cast hn
        have hq3 : (st2.current_mt.measure : ℚ) < (u32Size : ℚ) := by nlinarith
        exact_mod_cast hq3
      show music_time_sub ts st2.current_mt MusicTime.zero
          = (terms.map Terminal.duration).foldl (music_time_add ts) MusicTime.zero
      rw [music_time_sub_zero_right ts _ hn h2 hmeas]
      calc st2.current_mt
          = Beat.as_music_time (total_beats ts st2.current_mt) ts :=
            (as_music_time_total_beats ts _ hn h2).symm
        _ = Beat.as_music_time (total_beats ts ((terms.map Terminal.duration).foldl
              (music_time_add ts) MusicTime.zero)) ts := by rw [hBeq]
        _ = (terms.map Terminal.duration).foldl (music_time_add ts) MusicTime.zero :=
            as_music_time_total_beats ts _ hn hfold.1

/-- Concrete run of C5: the three-terminal string `:c<1> ::v=80 :r<1,0>`
(a one-beat note, a volume change contributing zero, a one-measure rest). -/
theorem c5_witness :
    (∀ t ∈ [Terminal.Music ⟨0, 1⟩ (.Note ⟨4, 3⟩), .Meta (.ChangeVolume ⟨80⟩),
        .Music ⟨1, 0⟩ .Rest], 0 ≤ (Terminal.duration t).beat)
    ∧ (([Terminal.Music ⟨0, 1⟩ (.Note ⟨4, 3⟩), .Meta (.ChangeVolume ⟨80⟩),
          .Music ⟨1, 0⟩ .Rest].map Terminal.duration).map
        (total_beats TimeSignature.common)).sum
        < (TimeSignature.common.beatsPerMeasure : ℚ) * (u32Size : ℚ)
    ∧ ∃ comp, compose TimeSignature.common
          ([Terminal.Music ⟨0, 1⟩ (.Note ⟨4, 3⟩), .Meta (.ChangeVolume ⟨80⟩),
            .Music ⟨1, 0⟩ .Rest].map fun t => .Simple (.T t)) none
        = .ok comp
      ∧ comp.get_duration
          = ([Terminal.Music ⟨0, 1⟩ (.Note ⟨4, 3⟩), .Meta (.ChangeVolume ⟨80⟩),
              .Music ⟨1, 0⟩ .Rest].map Terminal.duration).foldl
              (music_time_add TimeSignature.common) MusicTime.zero :=
  ⟨by intro t ht
      fin_cases ht <;> norm_num [Terminal.duration, MusicTime.zero],
    by norm_num [Terminal.duration, total_beats, TimeSignature.common, MusicTime.zero, u32Size],
    c5_simple_only_duration TimeSignature.common
      [Terminal.Music ⟨0, 1⟩ (.Note ⟨4, 3⟩), .Meta (.ChangeVolume ⟨80⟩),
        .Music ⟨1, 0⟩ .Rest] none
      (by norm_num [TimeSignature.common])
      (by intro t ht
          fin_cases ht <;> norm_num [Terminal.duration, MusicTime.zero])
      (by norm_num [Terminal.duration, total_beats, TimeSignature.common, MusicTime.zero,
            u32Size])⟩

/-! ### C8 — the scanner layer (src/backend/src/cfg/scan.rs)

Inputs are modeled as `List Char` (the sources index by bytes, which agrees
with chars on the ASCII grammar alphabet).  `ScanResult` is the Rust
`Result<(T, &str), ScanError>` extended with a `panic` outcome for the
`unwrap()` calls that crash, and a `fuel` outcome marking exhaustion of the
structural-recursion budget used to model the `while` loop of
`MusicStringScanner` (unreachable once the budget exceeds the input
length). -/

/-- `ScanError` from scan.rs. -/
inductive ScanError where
  | Generic (msg : String)
  | ExpectedEither (a b : String)
deriving DecidableEq, Repr

/-- Outcome of `Scanner::scan`: success with the scanned value and the
remaining input, a returned `ScanError`, a crash (`unwrap` of a failed
parse), or an exhausted modeling budget. -/
inductive ScanResult (α : Type) where
  | ok (val : α) (rest : List Char)
  | err (e : ScanError)
  | panic (msg : String)
  | fuel

/-- Result chaining, mirroring `?` / `and_then` on the Rust side. -/
def ScanResult.bind {α β : Type} (r : ScanResult α)
    (f : α → List Char → ScanResult β) : ScanResult β :=
  match r with
  | .ok v rest => f v rest
  | .err e => .err e
  | .panic m => .panic m
  | .fuel => .fuel

/-- Digit accumulation for `str::parse` of an unsigned integer. -/
def parse_nat_aux : List Char → ℕ → Option ℕ
  | [], acc => some acc
  | c :: cs, acc =>
    if c.isDigit then parse_nat_aux cs (acc * 10 + (c.toNat - 48))
    else none

/-- `usize::MAX + 1` (the scanners run on a 64-bit target). -/
def u64Size : ℕ := 18446744073709551616

/-- `str::parse` for an unsigned integer type with exclusive bound `bound`:
errors on an empty string, a stray character, or overflow; accepts one
leading plus sign. -/
def parse_uint (bound : ℕ) (s : List Char) : Option ℕ :=
  match s with
  | [] => none
  | '+' :: rest =>
    match rest with
    | [] => none
    | _ => (parse_nat_aux rest 0).bind fun n => if n < bound then some n else none
  | _ => (parse_nat_aux s 0).bind fun n => if n < bound then some n else none

/-- `find_matching` from scan.rs: one opening delimiter has already been
consumed; report the index of the balancing closing delimiter. -/
def find_matching_aux (op cl : Char) : List Char → ℕ → ℕ → Option ℕ
  | [], _, _ => none
  | c :: cs, stack, i =>
    if c = op then find_matching_aux op cl cs (stack + 1) (i + 1)
    else if c = cl then
      if stack = 1 then some i
      else find_matching_aux op cl cs (stack - 1) (i + 1)
    else find_matching_aux op cl cs stack (i + 1)

def find_matching (input : List Char) (op cl : Char) : Option ℕ :=
  find_matching_aux op cl input 1 0

/-- `str::split` on a single separator character. -/
def split_on_char : List Char → Char → List (List Char)
  | [], _ => [[]]
  | c :: cs, sep =>
    if c = sep then [] :: split_on_char cs sep
    else
      match split_on_char cs sep with
      | [] => [[c]]
      | p :: ps => (c :: p) :: ps

/-- `Instrument::from_str` (composition.rs): the input is lowercased and
matched against the lowercased debug names of the `Instrument` enum (plus
the explicit `piano` arm). -/
def instrument_from_str (s : List Char) : Option Instrument :=
  let l := s.map Char.toLower
  if l = "piano".toList then some Instrument.Piano
  else if l = "sinewave".toList then some Instrument.SineWave
  else if l = "bass".toList then some Instrument.Bass
  else if l = "bongohigh".toList then some Instrument.BongoHigh
  else if l = "bongolow".toList then some Instrument.BongoLow
  else if l = "shaker1".toList then some Instrument.Shaker1
  else if l = "shaker2".toList then some Instrument.Shaker2
  else none

/-- The accumulation loop of `VolumeScanner::scan`; the digit string is
handed to `parse().unwrap()`, which panics past `u32::MAX`. -/
def volume_scan_loop (acc : List Char) : List Char → ScanResult Volume
  | [] =>
    match parse_uint u32Size acc with
    | some n => .ok ⟨n⟩ []
    | none => .panic "called Result::unwrap on an Err value"
  | c :: cs =>
    if c.isDigit then volume_scan_loop (acc ++ [c]) cs
    else
      match parse_uint u32Size acc with
      | some n => .ok ⟨n⟩ cs
      | none => .panic "called Result::unwrap on an Err value"

/-- `VolumeScanner::scan`. -/
def volume_scan : List Char → ScanResult Volume
  | [] => .err (.Generic "Expected Volume")
  | first :: rest =>
    if first.isDigit then volume_scan_loop [first] rest
    else .err (.Generic "Expected Volume")

/-- The accumulation loop of `InstrumentScanner::scan`; the collected name
is handed to `parse().unwrap()`, which panics on any unknown instrument. -/
def instrument_scan_loop (acc : List Char) : List Char → ScanResult Instrument
  | [] =>
    match instrument_from_str acc with
    | some i => .ok i []
    | none => .panic "called Result::unwrap on an Err value"
  | c :: cs =>
    if c.isAlphanum || c = '_' then instrument_scan_loop (acc ++ [c]) cs
    else
      match instrument_from_str acc with
      | some i => .ok i cs
      | none => .panic "called Result::unwrap on an Err value"

/-- `InstrumentScanner::scan`. -/
def instrument_scan : List Char → ScanResult Instrument
  | [] => .err (.Generic "Expected Instrument")
  | first :: rest =>
    if first.isAlpha then instrument_scan_loop [first] rest
    else .err (.Generic "Expected Instrument")

/-- The accumulation loop of `NonTerminalScanner::scan`. -/
def nonterminal_scan_loop (acc : List Char) : List Char → ScanResult String
  | [] => .ok (String.mk acc) []
  | c :: cs =>
    if c.isAlphanum || c = '-' then nonterminal_scan_loop (acc ++ [c]) cs
    else .ok (String.mk acc) cs

/-- `NonTerminalScanner::scan`. -/
def nonterminal_scan : List Char → ScanResult String
  | [] => .err (.Generic "Expected NonTerminal, but it\x27s an empty string")
  | first :: rest =>
    if first.isAlpha || first = '-' then nonterminal_scan_loop [first] rest
    else .err (.Generic ("Expected NonTerminal but got " ++ String.mk [first]))

/-- The note-name table of `NoteScanner::scan` (`a` through `g`,
case-insensitive). -/
def note_from_char (c : Char) : Option ℕ :=
  match c.toLower with
  | 'a' => some 0
  | 'b' => some 2
  | 'c' => some 3
  | 'd' => some 5
  | 'e' => some 7
  | 'f' => some 8
  | 'g' => some 10
  | _ => none

/-- The note-letter tail of `NoteScanner::scan`.  `note` is a `u8` in Rust:
the flat of note 0 (input `ab`) underflows, wrapping in release builds
(modeled with `% 256`; debug builds would panic there). -/
def note_scan_note (input : List Char) (nc : Char) (it : List Char) (octave : ℤ)
    (consumed : ℕ) : ScanResult TerminalNote :=
  match note_from_char nc with
  | none => .err (.Generic ("Expected Note: note name " ++ String.mk [nc]
      ++ " is not a valid note."))
  | some note0 =>
    match it with
    | [] => .ok (.Note ⟨octave, note0⟩) (input.drop consumed)
    | sf :: _ =>
      if sf = '#' then .ok (.Note ⟨octave, note0 + 1⟩) (input.drop (consumed + 1))
      else if sf = 'b' then .ok (.Note ⟨octave, (note0 + 255) % 256⟩)
        (input.drop (consumed + 1))
      else .ok (.Note ⟨octave, note0⟩) (input.drop consumed)

/-- `NoteScanner::scan`. -/
def note_scan (input : List Char) : ScanResult TerminalNote :=
  match input with
  | [] => .err (.Generic "Expected Note: octave number or note letter")
  | first :: cs =>
    if first = '_' then .ok .Rest cs
    else if first.isDigit then
      match cs with
      | [] => .err (.Generic ("Expected letter [a-g] after octave number after "
          ++ String.mk [first]))
      | nc :: it => note_scan_note input nc it ((first.toNat - 48 : ℕ) : ℤ) 2
    else note_scan_note input first cs 4 1

/-- `DurationScanner::scan`.  Parse failures inside a `<num/denom>` ratio
fall back to one beat and a plain `<n>` numeral parses with `unwrap_or(0)`,
but `Beat::new(num, denom)` (`Ratio::new`) panics when the scanned
denominator is zero. -/
def duration_scan (input : List Char) : ScanResult MusicTime :=
  match input with
  | '<' :: rest =>
    match find_matching rest '<' '>' with
    | some e =>
      let dur := rest.take e
      let rest2 := rest.drop (e + 1)
      if dur.contains '/' then
        let num_part := dur.takeWhile (· ≠ '/')
        let denom_part := ((dur.dropWhile (· ≠ '/')).drop 1).takeWhile (· ≠ '/')
        match parse_uint u32Size num_part, parse_uint u32Size denom_part with
        | some n, some d =>
          if d = 0 then .panic "denominator == 0"
          else .ok ⟨0, (n : ℚ) / (d : ℚ)⟩ rest2
        | _, _ => .ok (MusicTime.beats 1) rest2
      else .ok (MusicTime.beats ((parse_uint u32Size dur).getD 0)) rest2
    | none => .err (.Generic "Expected \x27>\x27")
  | _ => .ok (MusicTime.beats 1) input

/-- `MetaControlScanner::scan`. -/
def metacontrol_scan (input : List Char) : ScanResult MetaControl :=
  match input with
  | [] => .err (.Generic "Expected MetaControl")
  | [first] => .err (.Generic ("Expected \x27=\x27 to follow meta control character "
      ++ String.mk [first]))
  | first :: second :: rest =>
    if second = '=' then
      if first = 'i' then
        (instrument_scan rest).bind fun i r2 => .ok (.ChangeInstrument i) r2
      else if first = 'v' then
        (volume_scan rest).bind fun v r2 => .ok (.ChangeVolume v) r2
      else .err (.Generic ("Expected MetaControl: i= or v=, found "
          ++ String.mk [first] ++ "="))
    else .err (.Generic ("Expected \x27=\x27 to follow meta control character "
        ++ String.mk [first]))

/-- `TerminalScanner::scan`: a leading colon selects the meta-control arm
(on the input past the colon), otherwise a note followed by an optional
duration. -/
def terminal_scan (input : List Char) : ScanResult Terminal :=
  match input with
  | ':' :: rest => (metacontrol_scan rest).bind fun mc r2 => .ok (.Meta mc) r2
  | _ =>
    (note_scan input).bind fun note r2 =>
      (duration_scan r2).bind fun dur r3 => .ok (.Music dur note) r3

/-- `SymbolScanner::scan`: a leading colon selects the terminal arm (on the
input past the colon), otherwise a nonterminal name. -/
def symbol_scan (input : List Char) : ScanResult Symbol :=
  match input with
  | ':' :: rest => (terminal_scan rest).bind fun t r2 => .ok (.T t) r2
  | _ => (nonterminal_scan input).bind fun s r2 => .ok (.NT (.Custom s)) r2

mutual

/-- The `while` loop of `MusicStringScanner::scan`: trim leading
whitespace, scan one primitive, then continue on the remaining input;
a scan error ends the loop (the Rust code logs and breaks), returning the
primitives collected so far. -/
def music_string_loop : ℕ → List MusicPrimitive → List Char → ScanResult MusicString
  | 0, _, _ => .fuel
  | fuel + 1, acc, remaining =>
    match remaining with
    | [] => .ok acc remaining
    | _ =>
      match remaining.dropWhile Char.isWhitespace with
      | [] => .ok acc []
      | rem =>
        match music_primitive_scan fuel rem with
        | .ok prim new_input => music_string_loop fuel (acc ++ [prim]) new_input
        | .err _ => .ok acc rem
        | .panic m => .panic m
        | .fuel => .fuel

/-- `consume(MusicStringScanner)`: scan a full `MusicString` and require
that it consumed the entire input. -/
def consume_music_string : ℕ → List Char → ScanResult MusicString
  | 0, _ => .fuel
  | fuel + 1, input =>
    match music_string_loop fuel [] input with
    | .ok ms rest =>
      if rest = [] then .ok ms rest
      else .err (.Generic "Did not consume entire input")
    | r => r

/-- The `try_fold` over the later branches of a `Split`: each part is
scanned with a plain `MusicStringScanner` and appended (the returned rest
component is unused by the caller). -/
def scan_branches : ℕ → List (List Char) → List MusicString →
    ScanResult (List MusicString)
  | 0, _, _ => .fuel
  | fuel + 1, parts, acc =>
    match parts with
    | [] => .ok acc []
    | p :: ps =>
      match music_string_loop fuel [] p with
      | .ok ms _ => scan_branches fuel ps (acc ++ [ms])
      | .err e => .err e
      | .panic m => .panic m
      | .fuel => .fuel

/-- `MusicPrimitiveScanner::scan`: dispatch on the leading character — a
brace selects the split scanner, a bracket the repeat scanner, anything
else a symbol. -/
def music_primitive_scan : ℕ → List Char → ScanResult MusicPrimitive
  | 0, _ => .fuel
  | fuel + 1, input =>
    match input with
    | '{' :: _ => music_primitive_split_scan fuel input
    | '[' :: _ => music_primitive_repeat_scan fuel input
    | _ => (symbol_scan input).bind fun s rest => .ok (.Simple s) rest

/-- `MusicPrimitiveSplitScanner::scan`: find the matching closing brace,
split the inside on the bar character, scan the first part with
`consume(MusicStringScanner)` and the rest with plain scanners. -/
def music_primitive_split_scan : ℕ → List Char → ScanResult MusicPrimitive
  | 0, _ => .fuel
  | fuel + 1, input =>
    match input with
    | '{' :: rest =>
      match find_matching rest '{' '}' with
      | some e =>
        (consume_music_string fuel ((split_on_char (rest.take e) '|').headD [])).bind
          fun ms _ =>
            match scan_branches fuel (split_on_char (rest.take e) '|').tail [ms] with
            | .ok branches _ => .ok (.Split branches) (rest.drop (e + 1))
            | .err er => .err er
            | .panic m => .panic m
            | .fuel => .fuel
      | none => .err (.Generic "Expected \x27\x7d\x27")
    | _ => .err (.Generic "Expected \x27\x7b\x27")

/-- `MusicPrimitiveRepeatScanner::scan`: `[` count `][` content `]`.
The count slice between the first brackets is handed to
`parse().unwrap()` — a panic whenever it is not a valid `usize`. -/
def music_primitive_repeat_scan : ℕ → List Char → ScanResult MusicPrimitive
  | 0, _ => .fuel
  | fuel + 1, input =>
    match input with
    | '[' :: _ =>
      match List.findIdx? (fun c => c = ']') input with
      | some e =>
        match input.drop (e + 1) with
        | '[' :: rest =>
          match find_matching rest '[' ']' with
          | some eb =>
            (consume_music_string fuel (rest.take eb)).bind fun ms _ =>
              match parse_uint u64Size ((input.take e).drop 1) with
              | some n => .ok (.Repeat n ms) (rest.drop (eb + 1))
              | none => .panic "called Result::unwrap on an Err value"
          | none => .err (.Generic "Expected \x27]\x27")
        | _ => .err (.Generic "Expected \x27[\x27")
      | none => .err (.Generic "Expected \x27]\x27")
    | _ => .err (.Generic "Expected \x27[\x27")

end

/-- `MusicStringScanner::scan` (with a recursion budget `fuel`). -/
def music_string_scan (fuel : ℕ) (input : List Char) : ScanResult MusicString :=
  music_string_loop fuel [] input

/-- **C8 (refuted: the scanner layer can panic).** Three concrete inputs on
which concrete scanners crash instead of returning a `ScanError`:
`MusicPrimitiveRepeatScanner` on `[a][]` (`repeat_num.parse().unwrap()` on
the non-numeric count `a`), `InstrumentScanner` on `sine`
(`parse().unwrap()` on a name `Instrument::from_str` rejects — the name the
crate\x27s own `test_instrument` uses), and `VolumeScanner` on `4294967296`
(`parse::<u32>().unwrap()` past `u32::MAX`). -/
theorem c8_scanners_panic :
    music_primitive_repeat_scan 10 ("[a][]".toList)
        = .panic "called Result::unwrap on an Err value"
    ∧ instrument_scan ("sine".toList)
        = .panic "called Result::unwrap on an Err value"
    ∧ volume_scan ("4294967296".toList)
        = .panic "called Result::unwrap on an Err value" :=
  ⟨rfl, rfl, rfl⟩

end MusicTurtles
